import Mathlib

/-!
Verification of the resume-parsing engine (`SCV/utils/parse_resume.py`).

Strings are modelled as `List Char` (`Str`).  Each Python helper is
translated into an executable Lean function; the regular expressions used
by the source are modelled by dedicated scanners that reproduce the
leftmost, greedy, ordered-alternative semantics of the `re` module on the
character classes actually occurring in the patterns.  Scanners whose
recursion is not structural take an explicit step bound (always
instantiated with more steps than the input length, which every scan
consumes at least one character per step of).
-/

set_option maxRecDepth 20000
set_option maxHeartbeats 4000000

/-- Strings as lists of characters. -/
abbrev Str := List Char

/-- Coerce a Lean string literal to the `Str` model. -/
def str (s : String) : Str := s.data

/-- Python `\s` (ASCII range): space, tab, newline, carriage return,
vertical tab, form feed. -/
def isSpacePy (c : Char) : Bool :=
  c = ' ' ∨ c = '\t' ∨ c = '\n' ∨ c = '\r' ∨ c = '\x0b' ∨ c = '\x0c'

/-- Python `\w` (ASCII range): letters, digits, underscore. -/
def isWordPy (c : Char) : Bool := c.isAlpha ∨ c.isDigit ∨ c = '_'

/-- Python `str.strip()` : drop whitespace from both ends. -/
def pyStrip (l : Str) : Str :=
  ((l.dropWhile isSpacePy).reverse.dropWhile isSpacePy).reverse

/-- Python `str.lstrip(chars)` : drop any leading characters from `cs`. -/
def pyLstripChars (cs : List Char) (l : Str) : Str :=
  l.dropWhile (fun c => cs.contains c)

/-- Python `str.rstrip(chars)` : drop any trailing characters from `cs`. -/
def pyRstripChars (cs : List Char) (l : Str) : Str :=
  (l.reverse.dropWhile (fun c => cs.contains c)).reverse

/-- Python `str.strip(chars)` with an explicit character set. -/
def pyStripChars (cs : List Char) (l : Str) : Str :=
  pyRstripChars cs (pyLstripChars cs l)

/-- Helper for `pySplit`: `cur` is the reversed token being accumulated. -/
def pySplitAux : Str → Str → List Str
  | cur, [] => if cur.isEmpty then [] else [cur.reverse]
  | cur, c :: rest =>
    if isSpacePy c then
      if cur.isEmpty then pySplitAux [] rest else cur.reverse :: pySplitAux [] rest
    else pySplitAux (c :: cur) rest

/-- Python `str.split()` : split on whitespace runs, no empty tokens. -/
def pySplit (l : Str) : List Str := pySplitAux [] l

/-- Number of whitespace-separated tokens, Python `len(line.split())`. -/
def wordCount (l : Str) : Nat := (pySplit l).length

/-- Python `str.lower()` on ASCII. -/
def lowerS (l : Str) : Str := l.map Char.toLower

/-- Python `str.upper()` on ASCII. -/
def upperS (l : Str) : Str := l.map Char.toUpper

/-- Substring test, Python `p in s`. -/
def isSubstr (p s : Str) : Bool :=
  (List.range (s.length + 1)).any (fun i => (s.drop i).take p.length = p)

/-- Case-insensitive literal match at the head of `s`; returns the rest. -/
def matchLitCI : Str → Str → Option Str
  | [], rest => some rest
  | _ :: _, [] => none
  | p :: ps, c :: cs => if c.toLower = p.toLower then matchLitCI ps cs else none

/-- Literal (case-sensitive) match at the head of `s`; returns the rest. -/
def matchLit : Str → Str → Option Str
  | [], rest => some rest
  | _ :: _, [] => none
  | p :: ps, c :: cs => if c = p then matchLit ps cs else none

/-- Count of decimal digits, Python `len(re.sub(r"\D", "", s))`. -/
def digitCount (l : Str) : Nat := (l.filter Char.isDigit).length

/-! ### 4.1 Text Normalizer (`_merge_hyphenated_words`, `_normalize_newlines`) -/

/-- `re.sub(r"(\w+)-\s*\n\s*(\w+)", r"\1\2", text)`: a maximal word run,
a hyphen, a whitespace run containing a line break, and the following word
run are replaced by the two word runs, scanning left to right without
re-scanning replacements.  (A match can only start at a word character,
and if the run fails the pattern every start inside it fails too, so
emitting the whole run preserves the leftmost-match semantics.) -/
def mergeHyphAux : Nat → Str → Str
  | 0, l => l
  | _ + 1, [] => []
  | fuel + 1, c :: rest =>
    if isWordPy c then
      let run := c :: rest.takeWhile isWordPy
      let after := rest.dropWhile isWordPy
      match after with
      | '-' :: tail =>
        let ws := tail.takeWhile isSpacePy
        let rest2 := tail.dropWhile isSpacePy
        if ws.contains '\n' then
          match rest2 with
          | d :: rest3 =>
            if isWordPy d then
              run ++ (d :: rest3.takeWhile isWordPy) ++
                mergeHyphAux fuel (rest3.dropWhile isWordPy)
            else run ++ '-' :: mergeHyphAux fuel tail
          | [] => run ++ '-' :: mergeHyphAux fuel tail
        else run ++ '-' :: mergeHyphAux fuel tail
      | _ => run ++ mergeHyphAux fuel after
    else c :: mergeHyphAux fuel rest

/-- `_merge_hyphenated_words`. -/
def mergeHyphenated (l : Str) : Str := mergeHyphAux (l.length + 1) l

/-- `text.replace("\r", "\n")`. -/
def replaceCR (l : Str) : Str := l.map (fun c => if c = '\r' then '\n' else c)

/-- `re.sub(r"\n{3,}", "\n\n", text)`: each maximal run of `n ≥ 3` line
breaks becomes exactly two.  Implemented as a single pass emitting at most
the first two line breaks of every run (`k` counts the breaks already
emitted in the current run), which is extensionally the same replacement. -/
def collapseNewlines : Nat → Str → Str
  | _, [] => []
  | k, c :: rest =>
    if c = '\n' then
      if k < 2 then '\n' :: collapseNewlines (k + 1) rest
      else collapseNewlines k rest
    else c :: collapseNewlines 0 rest

/-- `_normalize_newlines`. -/
def normalizeNewlines (l : Str) : Str := collapseNewlines 0 (replaceCR l)

/-- The Text Normalizer as run by `preprocess_text_into_blocks` and
`parse_resume_text`: hyphen joining, then newline normalization. -/
def normalizeText (l : Str) : Str := normalizeNewlines (mergeHyphenated l)

theorem collapseNewlines_idem (l : Str) :
    ∀ k, collapseNewlines k (collapseNewlines k l) = collapseNewlines k l := by
  induction l with
  | nil => intro k; simp [collapseNewlines]
  | cons c rest ih =>
    intro k
    by_cases hc : c = '\n'
    · subst hc
      by_cases hk : k < 2
      · simp [collapseNewlines, hk, ih]
      · simp [collapseNewlines, hk, ih]
    · simp [collapseNewlines, hc, ih]

theorem mem_collapseNewlines {c : Char} {l : Str} :
    ∀ k, c ∈ collapseNewlines k l → c ∈ l := by
  induction l with
  | nil => intro k h; simp [collapseNewlines] at h
  | cons a rest ih =>
    intro k h
    by_cases ha : a = '\n'
    · subst ha
      by_cases hk : k < 2
      · simp [collapseNewlines, hk] at h
        rcases h with h | h
        · simp [h]
        · exact List.mem_cons_of_mem _ (ih _ h)
      · simp [collapseNewlines, hk] at h
        exact List.mem_cons_of_mem _ (ih _ h)
    · simp [collapseNewlines, ha] at h
      rcases h with h | h
      · simp [h]
      · exact List.mem_cons_of_mem _ (ih _ h)

theorem replaceCR_no_cr (l : Str) : '\r' ∉ replaceCR l := by
  intro h
  simp only [replaceCR, List.mem_map] at h
  obtain ⟨c, _, hc⟩ := h
  by_cases h' : c = '\r' <;> simp [h'] at hc

theorem replaceCR_of_no_cr {l : Str} (h : '\r' ∉ l) : replaceCR l = l := by
  induction l with
  | nil => rfl
  | cons c rest ih =>
    simp only [List.mem_cons, not_or] at h
    simp [replaceCR] at ih ⊢
    exact ⟨fun hc => absurd hc.symm h.1, ih h.2⟩

theorem normalizeNewlines_idem (l : Str) :
    normalizeNewlines (normalizeNewlines l) = normalizeNewlines l := by
  unfold normalizeNewlines
  have hno : '\r' ∉ collapseNewlines 0 (replaceCR l) := by
    intro h
    exact replaceCR_no_cr l (mem_collapseNewlines 0 h)
  rw [replaceCR_of_no_cr hno, collapseNewlines_idem]

/-- C2 counterexample input `"a-\nb-\nc"`. -/
def c2input : Str := str "a-\nb-\nc"

/-- C2: the claim "normalize (normalize s) = normalize s for every s" is
false: on `"a-\nb-\nc"` one pass yields `"ab-\nc"` and a second pass joins
the freshly created hyphen break, yielding `"abc"`. -/
theorem c2_normalizer_counterexample :
    normalizeText (normalizeText c2input) ≠ normalizeText c2input ∧
      normalizeText c2input = str "ab-\nc" ∧
      normalizeText (normalizeText c2input) = str "abc" := by
  refine ⟨?_, by decide, by decide⟩
  decide

/-- C2 (amended): the carriage-return and blank-line stages are idempotent,
so the Normalizer is idempotent exactly on inputs where the hyphen-join
stage is quiescent after one pass; in general a second pass can differ
because joining can create a new hyphen-break pattern. -/
theorem c2_normalizer_amended (s : Str)
    (h : mergeHyphenated (normalizeText s) = normalizeText s) :
    normalizeText (normalizeText s) = normalizeText s := by
  calc normalizeText (normalizeText s)
      = normalizeNewlines (mergeHyphenated (normalizeText s)) := rfl
    _ = normalizeNewlines (normalizeText s) := by rw [h]
    _ = normalizeNewlines (normalizeNewlines (mergeHyphenated s)) := rfl
    _ = normalizeNewlines (mergeHyphenated s) := normalizeNewlines_idem _
    _ = normalizeText s := rfl

/-- C2 witness: a concrete input (with a carriage return and a long blank
run, but no residual hyphen break) on which the amended theorem applies. -/
theorem c2_normalizer_amended_witness :
    mergeHyphenated (normalizeText (str "a\r\n\n\nb")) = normalizeText (str "a\r\n\n\nb") ∧
      normalizeText (normalizeText (str "a\r\n\n\nb")) = normalizeText (str "a\r\n\n\nb") :=
  ⟨by decide, c2_normalizer_amended (str "a\r\n\n\nb") (by decide)⟩

/-! ### 4.2 Block Segmenter (`preprocess_text_into_blocks`) -/

/-- Python `t.split("\n\n")`: split on each non-overlapping occurrence of
two consecutive line breaks, scanning left to right. -/
def splitDoubleNL : Str → Str → List Str
  | acc, [] => [acc.reverse]
  | acc, '\n' :: '\n' :: rest => acc.reverse :: splitDoubleNL [] rest
  | acc, c :: rest => splitDoubleNL (c :: acc) rest

/-- Line-break characters of Python `str.splitlines()` other than `'\r'`. -/
def isLineBreakPy (c : Char) : Bool :=
  c = '\n' ∨ c = '\x0b' ∨ c = '\x0c' ∨ c = '\x1c' ∨ c = '\x1d' ∨ c = '\x1e' ∨
    c = '\x85' ∨ c = ' ' ∨ c = ' '

/-- Python `str.splitlines()`: split on line-break characters (treating
`"\r\n"` as one break), with no trailing empty line. -/
def splitLinesPy : Str → Str → List Str
  | acc, [] => if acc.isEmpty then [] else [acc.reverse]
  | acc, '\r' :: '\n' :: rest => acc.reverse :: splitLinesPy [] rest
  | acc, c :: rest =>
    if c = '\r' ∨ isLineBreakPy c then acc.reverse :: splitLinesPy [] rest
    else splitLinesPy (c :: acc) rest

/-- `preprocess_text_into_blocks`: normalize, split into blocks on the
double-line-break separator, split blocks into stripped non-empty lines,
drop empty blocks; also return the flat line list. -/
def preprocessTextIntoBlocks (raw : Str) : List (List Str) × List Str :=
  let t := normalizeText raw
  let blocksRaw := (splitDoubleNL [] t).filter (fun b => ¬ (pyStrip b).isEmpty)
  let blocks := ((blocksRaw.map (fun b =>
      ((splitLinesPy [] b).map pyStrip).filter (fun ln => ¬ ln.isEmpty))).filter
    (fun b => ¬ b.isEmpty))
  (blocks, blocks.flatten)

/-! ### 4.3 Repetition Filter (`remove_repeated_header_footer`) -/

/-- Whether a block contains a line whose stripped form is `k`. -/
def blockHasKey (k : Str) (b : List Str) : Bool := b.any (fun ln => pyStrip ln = k)

/-- In how many distinct blocks the stripped line `k` occurs (the value
`counter[k]` of the source, whose per-block `seen` set counts each block
at most once). -/
def keyBlockCount (blocks : List (List Str)) (k : Str) : Nat :=
  (blocks.filter (blockHasKey k)).length

/-- Membership in the source's `repeated` set: a short stripped line
(≤ 6 words) occurring in more than one block. -/
def isRepeatedKey (blocks : List (List Str)) (k : Str) : Bool :=
  wordCount k ≤ 6 ∧ 2 ≤ keyBlockCount blocks k

/-- Whether the `repeated` set is non-empty (every repeated key occurs in
some block, so it suffices to scan the blocks' own lines). -/
def anyRepeated (blocks : List (List Str)) : Bool :=
  blocks.any (fun b => b.any (fun ln => isRepeatedKey blocks (pyStrip ln)))


/-- One block of the source's cleaning pass: `removed` is the set of
repeated keys already kept once. -/
def cleanBlockAux (rep : Str → Bool) : List Str → List Str → List Str × List Str
  | removed, [] => ([], removed)
  | removed, ln :: rest =>
    let key := pyStrip ln
    if rep key then
      if key ∈ removed then cleanBlockAux rep removed rest
      else
        let p := cleanBlockAux rep (key :: removed) rest
        (ln :: p.1, p.2)
    else
      let p := cleanBlockAux rep removed rest
      (ln :: p.1, p.2)

/-- The cleaning pass over all blocks, dropping blocks left empty. -/
def cleanBlocksAux (rep : Str → Bool) : List Str → List (List Str) → List (List Str)
  | _, [] => []
  | removed, b :: bs =>
    let p := cleanBlockAux rep removed b
    if p.1.isEmpty then cleanBlocksAux rep p.2 bs
    else p.1 :: cleanBlocksAux rep p.2 bs

/-- `remove_repeated_header_footer`. -/
def removeRepeatedHeaderFooter (blocks : List (List Str)) : List (List Str) :=
  if anyRepeated blocks then cleanBlocksAux (isRepeatedKey blocks) [] blocks
  else blocks

/-- The claim-side removal policy on the flattened document: keep each
line, and if its stripped form is a repeated key delete every later line
with the same stripped form; lines whose stripped form is not repeated
are never touched. -/
def eraseFAAux (rep : Str → Bool) : Nat → List Str → List Str
  | 0, l => l
  | _ + 1, [] => []
  | fuel + 1, x :: xs =>
    x :: eraseFAAux rep fuel
      (if rep (pyStrip x) then xs.filter (fun y => decide (pyStrip y ≠ pyStrip x)) else xs)

/-- Keep-first / delete-subsequent policy over a flat line list. -/
def eraseFA (rep : Str → Bool) (l : List Str) : List Str :=
  eraseFAAux rep (l.length + 1) l

/-- The source's cleaning pass restricted to a flat line list (the
`removed`-set formulation). -/
def eraseSeen (rep : Str → Bool) : List Str → List Str → List Str
  | _, [] => []
  | removed, x :: xs =>
    let k := pyStrip x
    if rep k then
      if k ∈ removed then eraseSeen rep removed xs
      else x :: eraseSeen rep (k :: removed) xs
    else x :: eraseSeen rep removed xs

theorem eraseFAAux_fuel_irrel (rep : Str → Bool) :
    ∀ fuel fu2 (xs : List Str), xs.length ≤ fuel → xs.length ≤ fu2 →
      eraseFAAux rep fuel xs = eraseFAAux rep fu2 xs := by
  intro fuel
  induction fuel with
  | zero =>
    intro fu2 xs h _
    have : xs = [] := List.eq_nil_of_length_eq_zero (Nat.le_zero.mp h)
    subst this
    cases fu2 <;> rfl
  | succ f ih =>
    intro fu2 xs h h2
    cases xs with
    | nil => cases fu2 <;> rfl
    | cons x tail =>
      cases fu2 with
      | zero => simp at h2
      | succ f2 =>
        simp only [eraseFAAux]
        congr 1
        apply ih
        · split
          · exact le_trans (List.length_filter_le _ _) (Nat.le_of_succ_le_succ h)
          · exact Nat.le_of_succ_le_succ h
        · split
          · exact le_trans (List.length_filter_le _ _) (Nat.le_of_succ_le_succ h2)
          · exact Nat.le_of_succ_le_succ h2

theorem eraseSeen_eq_eraseFAAux (rep : Str → Bool) :
    ∀ (xs removed : List Str), (∀ k ∈ removed, rep k = true) →
      ∀ fuel, (xs.filter (fun y => decide (pyStrip y ∉ removed))).length ≤ fuel →
      eraseSeen rep removed xs =
        eraseFAAux rep fuel (xs.filter (fun y => decide (pyStrip y ∉ removed))) := by
  intro xs
  induction xs with
  | nil =>
    intro removed _ fuel _
    cases fuel <;> rfl
  | cons x tail ih =>
    intro removed hrem fuel hfuel
    by_cases hrep : rep (pyStrip x) = true
    · by_cases hmem : pyStrip x ∈ removed
      · have hdrop : List.filter (fun y => decide (pyStrip y ∉ removed)) (x :: tail) =
            tail.filter (fun y => decide (pyStrip y ∉ removed)) :=
          List.filter_cons_of_neg (by simp [hmem])
        rw [hdrop] at hfuel
        simp only [eraseSeen, hrep, if_pos hmem, if_true]
        rw [hdrop]
        exact ih removed hrem fuel hfuel
      · have hkeep : List.filter (fun y => decide (pyStrip y ∉ removed)) (x :: tail) =
            x :: tail.filter (fun y => decide (pyStrip y ∉ removed)) :=
          List.filter_cons_of_pos (by simp [hmem])
        rw [hkeep] at hfuel
        cases fuel with
        | zero => simp at hfuel
        | succ f =>
          simp only [eraseSeen, hrep, if_neg hmem, if_true]
          rw [hkeep]
          simp only [eraseFAAux, hrep, if_true]
          congr 1
          have hpred : (tail.filter (fun y => decide (pyStrip y ∉ removed))).filter
              (fun y => decide (pyStrip y ≠ pyStrip x)) =
              tail.filter (fun y => decide (pyStrip y ∉ pyStrip x :: removed)) := by
            rw [List.filter_filter]
            apply List.filter_congr
            intro y _
            by_cases h1 : pyStrip y = pyStrip x <;> by_cases h2 : pyStrip y ∈ removed <;>
              simp [h1, h2]
          have hrem' : ∀ k ∈ pyStrip x :: removed, rep k = true := by
            intro k hk
            rcases List.mem_cons.mp hk with h | h
            · subst h; exact hrep
            · exact hrem k h
          have hlen : (tail.filter (fun y => decide (pyStrip y ∉ pyStrip x :: removed))).length ≤
              f := by
            rw [← hpred]
            exact le_trans (List.length_filter_le _ _) (Nat.le_of_succ_le_succ hfuel)
          rw [hpred]
          exact ih (pyStrip x :: removed) hrem' f hlen
    · have hnotmem : pyStrip x ∉ removed := fun h => hrep (hrem (pyStrip x) h)
      have hkeep : List.filter (fun y => decide (pyStrip y ∉ removed)) (x :: tail) =
          x :: tail.filter (fun y => decide (pyStrip y ∉ removed)) :=
        List.filter_cons_of_pos (by simp [hnotmem])
      rw [hkeep] at hfuel
      cases fuel with
      | zero => simp at hfuel
      | succ f =>
        simp only [eraseSeen, hrep, if_false, Bool.false_eq_true]
        rw [hkeep]
        simp only [eraseFAAux, hrep, if_false, Bool.false_eq_true]
        congr 1
        exact ih removed hrem f (Nat.le_of_succ_le_succ hfuel)

theorem cleanBlockAux_append (rep : Str → Bool) :
    ∀ (b : List Str) (removed rest : List Str),
      eraseSeen rep removed (b ++ rest) =
        (cleanBlockAux rep removed b).1 ++ eraseSeen rep (cleanBlockAux rep removed b).2 rest := by
  intro b
  induction b with
  | nil => intro removed rest; rfl
  | cons ln tl ih =>
    intro removed rest
    by_cases hrep : rep (pyStrip ln) = true
    · by_cases hmem : pyStrip ln ∈ removed
      · simp only [List.cons_append, eraseSeen, hrep, if_pos hmem, if_true, cleanBlockAux]
        exact ih removed rest
      · simp only [List.cons_append, eraseSeen, hrep, if_neg hmem, if_true, cleanBlockAux,
          List.append_eq]
        congr 1
        exact ih (pyStrip ln :: removed) rest
    · simp only [List.cons_append, eraseSeen, hrep, if_false, Bool.false_eq_true, cleanBlockAux,
        List.append_eq]
      congr 1
      exact ih removed rest

theorem cleanBlocksAux_flatten (rep : Str → Bool) :
    ∀ (bs : List (List Str)) (removed : List Str),
      (cleanBlocksAux rep removed bs).flatten = eraseSeen rep removed bs.flatten := by
  intro bs
  induction bs with
  | nil => intro removed; rfl
  | cons b tl ih =>
    intro removed
    simp only [cleanBlocksAux, List.flatten_cons]
    rw [cleanBlockAux_append rep b removed tl.flatten]
    by_cases hnb : (cleanBlockAux rep removed b).1.isEmpty
    · simp only [hnb, if_true]
      rw [ih]
      rw [List.isEmpty_iff.mp hnb]
      rfl
    · simp only [hnb, if_false, List.flatten_cons, Bool.false_eq_true]
      rw [ih]

theorem cleanBlocksAux_no_empty (rep : Str → Bool) :
    ∀ (bs : List (List Str)) (removed : List Str),
      [] ∉ cleanBlocksAux rep removed bs := by
  intro bs
  induction bs with
  | nil => intro removed h; simp [cleanBlocksAux] at h
  | cons b tl ih =>
    intro removed h
    simp only [cleanBlocksAux] at h
    by_cases hnb : (cleanBlockAux rep removed b).1.isEmpty
    · rw [if_pos hnb] at h
      exact ih _ h
    · rw [if_neg hnb] at h
      rcases List.mem_cons.mp h with h | h
      · rw [← h] at hnb
        exact hnb rfl
      · exact ih _ h

/-- C6 counterexample: the claim says blocks left with no lines are
dropped, but when no short line repeats across blocks the source returns
its input untouched, so an empty input block survives. -/
theorem c6_repetition_counterexample :
    removeRepeatedHeaderFooter [([] : List Str)] = [[]] ∧
      ([] : List Str) ∈ removeRepeatedHeaderFooter [([] : List Str)] := by
  constructor
  · decide
  · decide

/-- C6 (amended): occurrences are compared by stripped content.  When no
short (≤ 6 word) stripped line occurs in more than one block, the block
list is returned entirely unchanged (including any already-empty blocks);
otherwise the surviving lines are exactly those of the keep-first /
delete-subsequent policy (`eraseFA`) applied to the flattened document —
which never touches a line whose stripped form is not repeated — and no
empty block remains. -/
theorem c6_repetition_amended (blocks : List (List Str)) :
    (anyRepeated blocks = false → removeRepeatedHeaderFooter blocks = blocks) ∧
      (anyRepeated blocks = true →
        (removeRepeatedHeaderFooter blocks).flatten =
            eraseFA (isRepeatedKey blocks) blocks.flatten ∧
          [] ∉ removeRepeatedHeaderFooter blocks) := by
  constructor
  · intro h
    simp [removeRepeatedHeaderFooter, h]
  · intro h
    refine ⟨?_, ?_⟩
    · simp only [removeRepeatedHeaderFooter, h, if_true]
      rw [cleanBlocksAux_flatten]
      have hfl : blocks.flatten.filter (fun y => decide (pyStrip y ∉ ([] : List Str))) =
          blocks.flatten := by
        apply List.filter_eq_self.mpr
        intro a _
        simp
      have := eraseSeen_eq_eraseFAAux (isRepeatedKey blocks) blocks.flatten []
        (by intro k hk; simp at hk) (blocks.flatten.length + 1)
        (by rw [hfl]; exact Nat.le_succ _)
      rw [hfl] at this
      exact this
    · simp only [removeRepeatedHeaderFooter, h, if_true]
      exact cleanBlocksAux_no_empty _ blocks []

/-- C6 witness: a repeated short header across blocks is kept once (first
occurrence) and its later occurrence deleted; no block is left empty. -/
theorem c6_repetition_amended_witness :
    anyRepeated [[str "Page 1"], [str "body line alpha beta gamma delta epsilon zeta eta"],
        [str "Page 1"]] = true ∧
      (removeRepeatedHeaderFooter [[str "Page 1"],
          [str "body line alpha beta gamma delta epsilon zeta eta"], [str "Page 1"]]).flatten =
        eraseFA (isRepeatedKey [[str "Page 1"],
          [str "body line alpha beta gamma delta epsilon zeta eta"], [str "Page 1"]])
          [str "Page 1", str "body line alpha beta gamma delta epsilon zeta eta", str "Page 1"] :=
  ⟨by decide,
    ((c6_repetition_amended [[str "Page 1"],
        [str "body line alpha beta gamma delta epsilon zeta eta"], [str "Page 1"]]).2
      (by decide)).1⟩

/-! ### 4.4 Header Extractor (`extract_header_info`, `_likely_name`) -/

/-- Character class `[\w\.-]` of the email pattern. -/
def emailChar (c : Char) : Bool := isWordPy c ∨ c = '.' ∨ c = '-'

/-- Backtracking split of the part after `@`: the greedy `[\w\.-]+`
gives back characters until a literal `.` followed by at least one word
character is found, so the split index is the largest such position. -/
def emailDotIdx (run2 : Str) : Option Nat :=
  (List.range run2.length).reverse.findSome? (fun m =>
    if 1 ≤ m ∧ run2[m]? = some '.' ∧ (run2[m + 1]?.any isWordPy) = true then some m
    else none)

/-- Match of `[\w\.-]+@[\w\.-]+\.\w+` anchored at the head of `s`;
returns the consumed length and the matched text. -/
def emailMatchAt (s : Str) : Option (Nat × Str) :=
  let run1 := s.takeWhile emailChar
  if run1.isEmpty then none
  else
    match s.drop run1.length with
    | '@' :: rest =>
      let run2 := rest.takeWhile emailChar
      match emailDotIdx run2 with
      | some m =>
        let wordrun := (run2.drop (m + 1)).takeWhile isWordPy
        let matched := run1 ++ '@' :: (run2.take m ++ '.' :: wordrun)
        some (matched.length, matched)
      | none => none
    | _ => none

/-- `email_re.findall`: leftmost non-overlapping matches. -/
def emailScanAux : Nat → Str → List Str
  | 0, _ => []
  | _ + 1, [] => []
  | fuel + 1, c :: rest =>
    match emailMatchAt (c :: rest) with
    | some (len, m) => m :: emailScanAux fuel ((c :: rest).drop len)
    | none => emailScanAux fuel rest

/-- All email matches of a line. -/
def emailMatches (l : Str) : List Str := emailScanAux (l.length + 1) l

/-- Separator class `[\s-]` of the phone pattern. -/
def phoneSep (c : Char) : Bool := isSpacePy c ∨ c = '-'

/-- Length of the leading digit run. -/
def digitsAvail (s : Str) : Nat := (s.takeWhile Char.isDigit).length

/-- The mandatory trailing `\d{3,4}[\s-]?\d{3,4}` of the phone pattern,
choices tried in the engine's greedy order. -/
def phoneCoreOpts (s : Str) : Option Nat :=
  ([4, 3].filter (· ≤ digitsAvail s)).findSome? (fun d1 =>
    let s7 := s.drop d1
    (match s7.head? with
     | some c => if phoneSep c then [1, 0] else [0]
     | none => [0]).findSome? (fun sp =>
      let s8 := s7.drop sp
      ([4, 3].filter (· ≤ digitsAvail s8)).head?.map (fun d2 => d1 + sp + d2)))

/-- Consumption candidates for the optional `(?:\(?\d{2,4}\)?[\s-]?)?`
group (present-alternatives in greedy order; the caller appends the
absent alternative). -/
def phoneAreaOpts (s : Str) : List Nat :=
  (match s.head? with
   | some '(' => [1, 0]
   | _ => [0]).flatMap (fun op =>
    let s3 := s.drop op
    ([4, 3, 2].filter (· ≤ digitsAvail s3)).flatMap (fun d =>
      let s4 := s3.drop d
      (match s4.head? with
       | some ')' => [1, 0]
       | _ => [0]).flatMap (fun cl =>
        let s5 := s4.drop cl
        (match s5.head? with
         | some c => if phoneSep c then [1, 0] else [0]
         | none => [0]).map (fun sp => op + d + cl + sp))))

/-- Consumption/capture candidates for group 1 `(\+\d{1,3}[\s-]?)?`. -/
def phoneG1Opts (s : Str) : List (Nat × Str) :=
  (match s with
   | '+' :: rest =>
     ([3, 2, 1].filter (· ≤ digitsAvail rest)).flatMap (fun d =>
       let afterD := rest.drop d
       (match afterD.head? with
        | some c => if phoneSep c then [1, 0] else [0]
        | none => [0]).map (fun sp =>
         (1 + d + sp, '+' :: (rest.take d ++ afterD.take sp))))
   | _ => []) ++ [(0, [])]

/-- Match of the phone pattern anchored at the head of `s`; returns the
consumed length and the capture of group 1 (which is what `findall`
yields, the pattern having exactly one capturing group). -/
def phoneMatchAt (s : Str) : Option (Nat × Str) :=
  (phoneG1Opts s).findSome? (fun g1 =>
    let s2 := s.drop g1.1
    ((phoneAreaOpts s2 ++ [0]).findSome? (fun a =>
      (phoneCoreOpts (s2.drop a)).map (fun c => g1.1 + a + c))).map (fun len => (len, g1.2)))

/-- `phone_re.findall`: leftmost non-overlapping matches, group-1 texts. -/
def phoneScanAux : Nat → Str → List Str
  | 0, _ => []
  | _ + 1, [] => []
  | fuel + 1, c :: rest =>
    match phoneMatchAt (c :: rest) with
    | some (len, g) => g :: phoneScanAux fuel ((c :: rest).drop len)
    | none => phoneScanAux fuel rest

/-- All phone-pattern group-1 captures of a line. -/
def phoneMatches (l : Str) : List Str := phoneScanAux (l.length + 1) l

/-- Trailing class of the first two url alternatives (word chars, dot,
slash): the pattern writes dot, hyphen, slash inside brackets, which the
engine parses as the two-character range from dot to slash — so the class
holds word characters, `'.'` and `'/'`, and no hyphen. -/
def urlChar (c : Char) : Bool := isWordPy c ∨ c = '.' ∨ c = '/'

/-- Trailing class `[^\s,]` of the profile-host alternatives. -/
def nonSpComma (c : Char) : Bool := ¬ isSpacePy c ∧ c ≠ ','

/-- Greedy non-empty class run after a matched literal. -/
def urlTailRun (cls : Char → Bool) (s : Str) (pre : Nat) : Option Nat :=
  let run := s.takeWhile cls
  if run.isEmpty then none else some (pre + run.length)

/-- Match of the url pattern (four ordered alternatives, case-insensitive)
anchored at the head of `s`. -/
def urlMatchAt (s : Str) : Option (Nat × Str) :=
  ((match matchLitCI (str "http") s with
    | some r1 =>
      (match r1.head? with
       | some c =>
         if c.toLower = 's' then
           match matchLit (str "://") (r1.drop 1) with
           | some r2 => urlTailRun urlChar r2 8
           | none =>
             match matchLit (str "://") r1 with
             | some r2 => urlTailRun urlChar r2 7
             | none => none
         else
           match matchLit (str "://") r1 with
           | some r2 => urlTailRun urlChar r2 7
           | none => none
       | none => none)
    | none => none).orElse (fun _ =>
      match matchLitCI (str "www.") s with
      | some r => urlTailRun urlChar r 4
      | none => none)).orElse (fun _ =>
    (match matchLitCI (str "linkedin.com/") s with
     | some r => urlTailRun nonSpComma r 13
     | none => none).orElse (fun _ =>
      match matchLitCI (str "github.com/") s with
      | some r => urlTailRun nonSpComma r 11
      | none => none))
  |>.map (fun len => (len, s.take len))

/-- `url_re.findall`: leftmost non-overlapping matches. -/
def urlScanAux : Nat → Str → List Str
  | 0, _ => []
  | _ + 1, [] => []
  | fuel + 1, c :: rest =>
    match urlMatchAt (c :: rest) with
    | some (len, m) => m :: urlScanAux fuel ((c :: rest).drop len)
    | none => urlScanAux fuel rest

/-- All url matches of a line. -/
def urlMatches (l : Str) : List Str := urlScanAux (l.length + 1) l

/-- Whether a line triggers `email_re.search`, `phone_re.search` or
`url_re.search` (a pattern has a match somewhere iff the non-overlapping
scan finds at least one). -/
def contactHit (ln : Str) : Bool :=
  ¬ (emailMatches ln).isEmpty ∨ ¬ (phoneMatches ln).isEmpty ∨ ¬ (urlMatches ln).isEmpty

/-- `_likely_name`. -/
def likelyName (line : Str) : Bool :=
  if line.isEmpty ∨ 4 < wordCount line then false
  else
    let low := lowerS line
    if [str "resume", str "cv", str "curriculum", str "address", str "phone",
        str "email"].any (fun k => isSubstr k low) then false
    else
      let words := pySplit line
      let alphaWords :=
        (words.filter (fun w => w.all (fun c => c.isAlpha ∨ c = '\'' ∨ c = '-'))).length
      if alphaWords < max 1 (words.length / 2) then false
      else 1 ≤ (words.filter (fun w => w.head?.any Char.isUpper)).length

/-- The contact record of the extractor. -/
structure Contact where
  emails : List Str
  phones : List Str
  links : List Str
deriving DecidableEq, Repr

/-- `for m in email_re.findall(ln): if m not in emails: emails.append(m)`
(same loop for links). -/
def appendNewAux (acc : List Str) : List Str → List Str
  | [] => acc
  | m :: ms => if m ∈ acc then appendNewAux acc ms else appendNewAux (acc ++ [m]) ms

/-- The phone loop: strip the group text, keep it when non-empty, fresh
and holding at least 7 digits. -/
def appendPhonesAux (acc : List Str) : List Str → List Str
  | [] => acc
  | g :: gs =>
    let cand := pyStrip g
    if ¬ cand.isEmpty ∧ cand ∉ acc ∧ 7 ≤ digitCount cand then
      appendPhonesAux (acc ++ [cand]) gs
    else appendPhonesAux acc gs

/-- The scanning loop of `extract_header_info` over the window, carrying
the contact lists and the first name candidate with its index. -/
def hdrScanAux : Nat → List Str → Contact × Option (Str × Nat) → Contact × Option (Str × Nat)
  | _, [], st => st
  | i, ln :: rest, (ct, nm) =>
    hdrScanAux (i + 1) rest
      ({ emails := appendNewAux ct.emails (emailMatches ln),
         phones := appendPhonesAux ct.phones (phoneMatches ln),
         links := appendNewAux ct.links (urlMatches ln) },
       match nm with
       | some p => some p
       | none => if likelyName ln then some (pyStrip ln, i) else none)

/-- `extract_header_info` with its default 15-line scan window. -/
def extractHeaderInfo (lines : List Str) (scanLines : Nat := 15) :
    Option Str × Contact × List Str :=
  let window := lines.take scanLines
  let st := hdrScanAux 0 window (⟨[], [], []⟩, none)
  let headerSet : List Str :=
    (match st.2 with
     | some p => window.take (p.2 + 1)
     | none => []) ++ window.filter contactHit
  (st.2.map Prod.fst, st.1, lines.filter (fun ln => decide (ln ∉ headerSet)))

/-- First window line judged name-like, with its stripped text and index
(the name part of the Header Extractor, stated as a plain scan). -/
def nameScanSpec : Nat → List Str → Option (Str × Nat)
  | _, [] => none
  | i, ln :: rest => if likelyName ln then some (pyStrip ln, i) else nameScanSpec (i + 1) rest

/-- The removal set of the Header Extractor, stated declaratively: the
window lines up to and including the first name-like line (when one
exists) together with every window line containing a detected email,
phone or link. -/
def hdrRemoval (lines : List Str) (scanLines : Nat) : List Str :=
  (match nameScanSpec 0 (lines.take scanLines) with
   | some p => (lines.take scanLines).take (p.2 + 1)
   | none => []) ++ (lines.take scanLines).filter contactHit

theorem hdrScanAux_keeps (window : List Str) :
    ∀ (i : Nat) (ct : Contact) (p : Str × Nat),
      (hdrScanAux i window (ct, some p)).2 = some p := by
  induction window with
  | nil => intros; rfl
  | cons ln rest ih =>
    intro i ct p
    simp only [hdrScanAux]
    exact ih _ _ _

theorem hdrScanAux_name (window : List Str) :
    ∀ (i : Nat) (ct : Contact),
      (hdrScanAux i window (ct, none)).2 = nameScanSpec i window := by
  induction window with
  | nil => intros; rfl
  | cons ln rest ih =>
    intro i ct
    by_cases h : likelyName ln = true
    · simp only [hdrScanAux, nameScanSpec, h, if_true]
      exact hdrScanAux_keeps rest _ _ _
    · simp only [hdrScanAux, nameScanSpec, h, if_false, Bool.false_eq_true]
      exact ih _ _

/-- C4 (amended): removal is by line content, not position.  The removed
lines' contents are exactly `hdrRemoval` — window lines up to and
including the first name-like line plus contact-bearing window lines, all
of which lie in the scan window — and the remaining list is the input
filtered by content membership in that set.  (A line at position 15 or
later is therefore removed exactly when its content coincides with a
removed window line, which refutes the claim as stated.) -/
theorem c4_header_extractor_amended (lines : List Str) :
    (extractHeaderInfo lines).2.2 =
        lines.filter (fun ln => decide (ln ∉ hdrRemoval lines 15)) ∧
      ∀ ln ∈ hdrRemoval lines 15, ln ∈ lines.take 15 := by
  constructor
  · simp only [extractHeaderInfo, hdrRemoval]
    rw [hdrScanAux_name]
  · intro ln h
    simp only [hdrRemoval] at h
    rcases List.mem_append.mp h with h | h
    · cases hcase : nameScanSpec 0 (lines.take 15) with
      | none => rw [hcase] at h; simp at h
      | some p =>
        rw [hcase] at h
        exact List.mem_of_mem_take h
    · exact List.mem_of_mem_filter h

/-- C4 counterexample input: a name line whose text recurs at position 15,
after the scan window. -/
def c4lines : List Str :=
  [str "John Doe",
   str "pad row one in the body",
   str "pad row two in the body",
   str "pad row three in the body",
   str "pad row four in the body",
   str "pad row five in the body",
   str "pad row six in the body",
   str "pad row seven in the body",
   str "pad row eight in the body",
   str "pad row nine in the body",
   str "pad row ten in the body",
   str "pad row eleven in the body",
   str "pad row twelve in the body",
   str "pad row thirteen in the body",
   str "pad row fourteen in the body",
   str "John Doe"]

/-- C4 counterexample: the claim says every line at position 15 or later
appears unchanged in the remaining list, but removal is by content — the
copy of the name line sitting at position 15 is removed as well. -/
theorem c4_header_extractor_counterexample :
    c4lines[15]? = some (str "John Doe") ∧
      str "John Doe" ∉ (extractHeaderInfo c4lines).2.2 ∧
      (extractHeaderInfo c4lines).2.2 = (c4lines.drop 1).take 14 := by
  refine ⟨by decide, by decide, by decide⟩

/-- C4 witness: the amended filter characterization evaluated on the
counterexample input, plus a removed line exhibited inside the window. -/
theorem c4_header_extractor_amended_witness :
    (extractHeaderInfo c4lines).2.2 =
        c4lines.filter (fun ln => decide (ln ∉ hdrRemoval c4lines 15)) ∧
      str "John Doe" ∈ c4lines.take 15 :=
  ⟨(c4_header_extractor_amended c4lines).1,
   (c4_header_extractor_amended c4lines).2 (str "John Doe") (by decide)⟩

/-- C10: on a scan-window line holding only a bare year range the phone
pattern does match (so the line is removed from the body), but
`phone_re.findall` returns only the optional country-code capture — the
empty string here, since the pattern has exactly one capturing group — so
the digit-count filter never sees the matched text and `contact.phones`
stays empty, contradicting the claim (and the extractor's evident
intent of recording the matched number). -/
theorem c10_year_range_phone_code_bug :
    phoneMatches (str "2015-2019") = [[]] ∧
      (extractHeaderInfo [str "2015-2019"]).2.1.phones = [] ∧
      (extractHeaderInfo [str "2015-2019"]).2.2 = [] ∧
      (extractHeaderInfo [str "2015-2019"]).1 = none := by
  refine ⟨by decide, by decide, by decide, by decide⟩

/-! ### 4.5 Section Segmenter (`_normalize_for_matching`, `_is_section_header`,
`segment_sections`) -/

/-- Length of the longest common extension of two suffixes. -/
def lcpLen : Str → Str → Nat
  | a :: as, b :: bs => if a = b then 1 + lcpLen as bs else 0
  | _, _ => 0

/-- `SequenceMatcher.find_longest_match` on full ranges (no junk, no
popular elements — the label strings are far below the autojunk
threshold): the longest common contiguous block, ties broken by earliest
start in `a`, then earliest start in `b`. -/
def flmBest (a b : Str) : Nat × Nat × Nat :=
  (List.range a.length).foldl (fun best i =>
    (List.range b.length).foldl (fun best j =>
      let k := lcpLen (a.drop i) (b.drop j)
      if best.2.2 < k then (i, j, k) else best) best) (0, 0, 0)

/-- Total size of `SequenceMatcher.get_matching_blocks` (recursive
longest-block decomposition); the step bound exceeds the recursion depth,
which is bounded by the total length. -/
def smTotal : Nat → Str → Str → Nat
  | 0, _, _ => 0
  | fuel + 1, a, b =>
    let t := flmBest a b
    if t.2.2 = 0 then 0
    else
      t.2.2 + smTotal fuel (a.take t.1) (b.take t.2.1) +
        smTotal fuel (a.drop (t.1 + t.2.2)) (b.drop (t.2.1 + t.2.2))

/-- The matched total `M` of `SequenceMatcher(None, a, b)`. -/
def smM (a b : Str) : Nat := smTotal (a.length + b.length + 1) a b

/-- `SequenceMatcher.ratio() > num/den`, compared exactly: the ratio is
`2M/T` with `T = len(a)+len(b)` (and `1.0` when `T = 0`); for the
thresholds `0.78` and `0.5` and the tiny sizes involved, the source's
float comparison agrees with the exact rational comparison. -/
def scoreGT (a b : Str) (num den : Nat) : Bool :=
  let t := a.length + b.length
  if t = 0 then num < den
  else num * t < den * (2 * smM a b)

/-- `SECTION_PATTERNS`, in the source's insertion order. -/
def sectionPatterns : List (String × List Str) :=
  [("experience", [str "experience", str "work experience",
      str "professional experience", str "employment history"]),
   ("education", [str "education", str "academic details", str "academic background"]),
   ("projects", [str "projects", str "academic projects", str "personal projects"]),
   ("skills", [str "skills", str "technical skills", str "skills & tools",
      str "technologies"]),
   ("certifications", [str "certifications", str "certificates"]),
   ("awards", [str "awards", str "achievements", str "honors"]),
   ("summary", [str "summary", str "profile", str "about me"])]

/-- Collapse each whitespace run to a single space (`re.sub(r"\s+", " ")`);
the flag records whether the previous character was whitespace. -/
def collapseSpacesAux : Bool → Str → Str
  | _, [] => []
  | inRun, c :: rest =>
    if isSpacePy c then
      if inRun then collapseSpacesAux true rest
      else ' ' :: collapseSpacesAux true rest
    else c :: collapseSpacesAux false rest

/-- `_normalize_for_matching`: lowercase, replace every character outside
lowercase letters, digits and whitespace by a space, collapse whitespace
runs, strip. -/
def normalizeForMatching (s : Str) : Str :=
  let s1 := lowerS s
  let s2 := s1.map (fun c =>
    if ('a' ≤ c ∧ c ≤ 'z') ∨ c.isDigit ∨ isSpacePy c then c else ' ')
  pyStrip (collapseSpacesAux false s2)

/-- `_is_section_header`: exact substring containment over the pattern
table first; then, for lines of at most 8 normalized tokens, the first
pattern with similarity above 0.78; finally, for short all-uppercase
lines, the best-scoring pattern if it beats 0.5. -/
def isSectionHeader (line : Str) : Option String :=
  let ln := normalizeForMatching line
  match sectionPatterns.findSome? (fun sp =>
    if sp.2.any (fun p => isSubstr p ln) then some sp.1 else none) with
  | some sect => some sect
  | none =>
    if 8 < (pySplit ln).length then none
    else
      match sectionPatterns.findSome? (fun sp =>
        if sp.2.any (fun p => scoreGT ln p 78 100) then some sp.1 else none) with
      | some sect => some sect
      | none =>
        if pyStrip line = upperS (pyStrip line) ∧ 1 ≤ wordCount line ∧ wordCount line ≤ 6 then
          let best := sectionPatterns.foldl (fun acc sp =>
            sp.2.foldl (fun acc p =>
              if acc.2.1 * (ln.length + p.length) < 2 * smM ln p * acc.2.2 then
                (some sp.1, (2 * smM ln p, ln.length + p.length))
              else acc) acc) ((none : Option String), ((0 : Nat), (1 : Nat)))
          match best.1 with
          | some sect => if best.2.2 < 2 * best.2.1 then some sect else none
          | none => none
        else none

/-- `sections[current] = []` when the key is new (Python dict insertion
appends at the end). -/
def ensureKey (m : List (String × List Str)) (k : String) : List (String × List Str) :=
  if m.any (fun kv => kv.1 = k) then m else m ++ [(k, [])]

/-- `sections.setdefault(current, []).append(ln)`. -/
def addLine : List (String × List Str) → String → Str → List (String × List Str)
  | [], k, v => [(k, [v])]
  | kv :: rest, k, v =>
    if kv.1 = k then (kv.1, kv.2 ++ [v]) :: rest else kv :: addLine rest k v

/-- The fold of `segment_sections` over the lines, carrying the section
map (insertion-ordered) and the current section key. -/
def segAux : List (String × List Str) → String → List Str → List (String × List Str)
  | m, _, [] => m
  | m, cur, ln :: rest =>
    match isSectionHeader ln with
    | some k => segAux (ensureKey m k) k rest
    | none => segAux (addLine m cur ln) cur rest

/-- `segment_sections`. -/
def segmentSections (lines : List Str) : List (String × List Str) :=
  (segAux [("other", [])] "other" lines).filter (fun kv => ¬ kv.2.isEmpty)

/-- All lines stored in a section map, in key-then-position order. -/
def valuesFlatten (m : List (String × List Str)) : List Str := (m.map Prod.snd).flatten

theorem valuesFlatten_ensureKey (m : List (String × List Str)) (k : String) :
    valuesFlatten (ensureKey m k) = valuesFlatten m := by
  unfold ensureKey
  split
  · rfl
  · simp [valuesFlatten]

theorem valuesFlatten_addLine (k : String) (v : Str) :
    ∀ m : List (String × List Str), (valuesFlatten (addLine m k v)).Perm (v :: valuesFlatten m) := by
  intro m
  induction m with
  | nil => simp [addLine, valuesFlatten]
  | cons kv rest ih =>
    by_cases hk : kv.1 = k
    · simp only [addLine, hk, if_true, valuesFlatten, List.map_cons, List.flatten_cons]
      have : kv.2 ++ [v] ++ (rest.map Prod.snd).flatten =
          kv.2 ++ v :: (rest.map Prod.snd).flatten := by
        simp
      rw [this]
      exact List.perm_middle
    · simp only [addLine, hk, if_false, valuesFlatten, List.map_cons, List.flatten_cons]
      have h1 : (kv.2 ++ valuesFlatten (addLine rest k v)).Perm
          (kv.2 ++ v :: valuesFlatten rest) := List.Perm.append_left _ ih
      have h2 : (kv.2 ++ v :: valuesFlatten rest).Perm
          (v :: (kv.2 ++ valuesFlatten rest)) := List.perm_middle
      exact h1.trans h2

theorem segAux_perm :
    ∀ (lines : List Str) (m : List (String × List Str)) (cur : String),
      (valuesFlatten (segAux m cur lines)).Perm
        (valuesFlatten m ++ lines.filter (fun ln => (isSectionHeader ln).isNone)) := by
  intro lines
  induction lines with
  | nil => intro m cur; simp [segAux]
  | cons ln rest ih =>
    intro m cur
    cases hh : isSectionHeader ln with
    | some k =>
      simp only [segAux, hh, List.filter_cons, Option.isNone_some, Bool.false_eq_true,
        if_false]
      have := ih (ensureKey m k) k
      rwa [valuesFlatten_ensureKey] at this
    | none =>
      simp only [segAux, hh, List.filter_cons, Option.isNone_none, if_true]
      have h1 := ih (addLine m cur ln) cur
      have h2 : (valuesFlatten (addLine m cur ln) ++
          rest.filter (fun ln => (isSectionHeader ln).isNone)).Perm
          ((ln :: valuesFlatten m) ++
            rest.filter (fun ln => (isSectionHeader ln).isNone)) :=
        List.Perm.append_right _ (valuesFlatten_addLine cur ln m)
      have h3 : ((ln :: valuesFlatten m) ++
          rest.filter (fun ln => (isSectionHeader ln).isNone)).Perm
          (valuesFlatten m ++
            ln :: rest.filter (fun ln => (isSectionHeader ln).isNone)) := by
        rw [List.cons_append]
        exact List.perm_middle.symm
      exact (h1.trans h2).trans h3

theorem addLine_content {P : Str → Prop} {v : Str} (hv : P v) :
    ∀ (m : List (String × List Str)) (k : String),
      (∀ p ∈ m, ∀ x ∈ p.2, P x) → ∀ p ∈ addLine m k v, ∀ x ∈ p.2, P x := by
  intro m
  induction m with
  | nil =>
    intro k _ p hp x hx
    simp only [addLine, List.mem_singleton] at hp
    subst hp
    simp only [List.mem_singleton] at hx
    subst hx
    exact hv
  | cons kv rest ih =>
    intro k hm p hp x hx
    by_cases hk : kv.1 = k
    · simp only [addLine, hk, if_true] at hp
      rcases List.mem_cons.mp hp with h | h
      · subst h
        rcases List.mem_append.mp hx with h | h
        · exact hm kv (List.mem_cons_self _ _) x h
        · simp only [List.mem_singleton] at h
          subst h
          exact hv
      · exact hm p (List.mem_cons_of_mem _ h) x hx
    · simp only [addLine, hk, if_false] at hp
      rcases List.mem_cons.mp hp with h | h
      · subst h
        exact hm p (List.mem_cons_self _ _) x hx
      · exact ih k (fun q hq => hm q (List.mem_cons_of_mem _ hq)) p h x hx

theorem ensureKey_content {P : Str → Prop} (m : List (String × List Str)) (k : String)
    (hm : ∀ p ∈ m, ∀ x ∈ p.2, P x) : ∀ p ∈ ensureKey m k, ∀ x ∈ p.2, P x := by
  intro p hp
  unfold ensureKey at hp
  split at hp
  · exact hm p hp
  · rcases List.mem_append.mp hp with h | h
    · exact hm p h
    · simp only [List.mem_singleton] at h
      subst h
      intro x hx
      simp at hx

theorem segAux_content :
    ∀ (lines : List Str) (m : List (String × List Str)) (cur : String),
      (∀ p ∈ m, ∀ x ∈ p.2, isSectionHeader x = none) →
      ∀ p ∈ segAux m cur lines, ∀ x ∈ p.2, isSectionHeader x = none := by
  intro lines
  induction lines with
  | nil => intro m cur hm; exact hm
  | cons ln rest ih =>
    intro m cur hm
    cases hh : isSectionHeader ln with
    | some k =>
      simp only [segAux, hh]
      exact ih _ _ (ensureKey_content m k hm)
    | none =>
      simp only [segAux, hh]
      exact ih _ _ (addLine_content hh m cur hm)

/-- C3 (amended): the section map's concatenated values are a permutation
of exactly the non-heading input lines — the heading lines themselves are
consumed as section switches and stored nowhere, so the full input list
is not reconstructible from the values. -/
theorem c3_segmenter_amended (lines : List Str) :
    (valuesFlatten (segmentSections lines)).Perm
        (lines.filter (fun ln => (isSectionHeader ln).isNone)) ∧
      ∀ p ∈ segmentSections lines, ∀ x ∈ p.2, isSectionHeader x = none := by
  constructor
  · have hfilter : valuesFlatten (segmentSections lines) =
        valuesFlatten (segAux [("other", [])] "other" lines) := by
      unfold segmentSections valuesFlatten
      generalize segAux [("other", [])] "other" lines = m
      induction m with
      | nil => rfl
      | cons kv rest ihm =>
        by_cases h : kv.2.isEmpty
        · rw [List.filter_cons_of_neg (by simp [h])]
          simp only [List.map_cons, List.flatten_cons]
          rw [List.isEmpty_iff.mp h, ihm]
          rfl
        · rw [List.filter_cons_of_pos (by simp [h])]
          simp only [List.map_cons, List.flatten_cons, ihm]
    rw [hfilter]
    have := segAux_perm lines [("other", [])] "other"
    simpa [valuesFlatten] using this
  · intro p hp
    apply segAux_content lines [("other", [])] "other"
    · intro q hq x hx
      simp only [List.mem_singleton] at hq
      subst hq
      simp at hx
    · exact List.mem_of_mem_filter hp

/-- C3 counterexample input: an exact heading followed by one body line. -/
def c3lines : List Str :=
  [str "EDUCATION", str "a line with nine plain lowercase words in it"]

/-- C3 counterexample: on `["EDUCATION", body]` the returned map holds
only the body line — no traversal of the values can reconstruct the input
list, which is not even a permutation of the stored lines. -/
theorem c3_segmenter_counterexample :
    segmentSections c3lines =
        [("education", [str "a line with nine plain lowercase words in it"])] ∧
      ¬ (valuesFlatten (segmentSections c3lines)).Perm c3lines := by
  refine ⟨by decide, ?_⟩
  intro h
  have hlen := h.length_eq
  have h1 : segmentSections c3lines =
      [("education", [str "a line with nine plain lowercase words in it"])] := by decide
  rw [h1] at hlen
  simp [valuesFlatten, c3lines] at hlen

/-- C7: an input consisting of the exact canonical heading `"EDUCATION"`
followed by two content (non-heading) lines segments into exactly the
bucket `"education"` holding those two lines verbatim, and the heading
line appears in no bucket. -/
theorem c7_section_roundtrip (l1 l2 : Str)
    (h1 : isSectionHeader l1 = none) (h2 : isSectionHeader l2 = none) :
    segmentSections [str "EDUCATION", l1, l2] = [("education", [l1, l2])] ∧
      ∀ p ∈ segmentSections [str "EDUCATION", l1, l2], str "EDUCATION" ∉ p.2 := by
  have hE : isSectionHeader (str "EDUCATION") = some "education" := by decide
  have hseg : segmentSections [str "EDUCATION", l1, l2] = [("education", [l1, l2])] := by
    simp [segmentSections, segAux, hE, h1, h2, ensureKey, addLine]
  refine ⟨hseg, ?_⟩
  intro p hp hmem
  rw [hseg] at hp
  simp only [List.mem_singleton] at hp
  subst hp
  simp only [List.mem_cons, List.mem_singleton] at hmem
  rcases hmem with h | h
  · rw [← h] at h1
    rw [h1] at hE
    exact Option.noConfusion hE
  · rcases h with h | h
    · rw [← h] at h2
      rw [h2] at hE
      exact Option.noConfusion hE
    · simp at h

/-- C7 witness: two concrete nine-word body lines. -/
theorem c7_section_roundtrip_witness :
    segmentSections [str "EDUCATION", str "aaa bbb ccc ddd eee fff ggg hhh iii",
        str "jjj kkk lll mmm nnn ooo ppp qqq rrr"] =
      [("education", [str "aaa bbb ccc ddd eee fff ggg hhh iii",
        str "jjj kkk lll mmm nnn ooo ppp qqq rrr"])] :=
  (c7_section_roundtrip (str "aaa bbb ccc ddd eee fff ggg hhh iii")
    (str "jjj kkk lll mmm nnn ooo ppp qqq rrr") (by decide) (by decide)).1

/-! ### 4.6 Section Entry Parsers (`DATE_RE`, `_is_header_like`,
`_extract_dates_from_line`, `parse_experience_section`,
`parse_projects_section`, `parse_education_section`,
`parse_skills_section`) -/

/-- The month-name alternatives of `DATE_RE`, in the pattern's order
(short names first, so e.g. `"Jan"` is tried before `"January"`). -/
def dateMonths : List Str :=
  [str "Jan", str "Feb", str "Mar", str "Apr", str "May", str "Jun", str "Jul",
   str "Aug", str "Sep", str "Sept", str "Oct", str "Nov", str "Dec",
   str "January", str "February", str "March", str "April", str "May", str "June",
   str "July", str "August", str "September", str "October", str "November",
   str "December"]

/-- One month alternative of `MONTH\.?\s+\d{4}` at the head of `s`
(case-insensitive, optional dot tried greedily, mandatory whitespace,
four digits); returns the consumed length. -/
def dateMonthYearOne (m : Str) (s : Str) : Option Nat :=
  match matchLitCI m s with
  | some r1 =>
    (match r1.head? with
     | some '.' => [1, 0]
     | _ => [0]).findSome? (fun dot =>
      let r2 := r1.drop dot
      let ws := (r2.takeWhile isSpacePy).length
      if ws = 0 then none
      else if 4 ≤ digitsAvail (r2.drop ws) then some (m.length + dot + ws + 4)
      else none)
  | none => none

/-- The separator class `[-–—to]` of `DATE_RE` (three dashes plus the
letters of `"to"`; `DATE_RE` carries `re.I`, so the letters match in
either case). -/
def isDateSep (c : Char) : Bool :=
  c = '-' ∨ c = '–' ∨ c = '—' ∨ c = 't' ∨ c = 'o' ∨ c = 'T' ∨ c = 'O'

/-- First-alternation candidates of `DATE_RE` at the head of `s` (month
branch for every month name, then the `\b\d{4}\b` branch, which needs a
non-word character — or the line start — before and after the digits). -/
def datePart1Opts (prev : Option Char) (s : Str) : List Nat :=
  dateMonths.filterMap (fun m => dateMonthYearOne m s) ++
    (if prev.all (fun c => ¬ isWordPy c) ∧ 4 ≤ digitsAvail s ∧
        (s.drop 4).head?.all (fun c => ¬ isWordPy c)
     then [4] else [])

/-- Second-alternation of `DATE_RE` at the head of `s`
(`Present|Now|Present\.|MONTH\.?\s+\d{4}|\d{4}`, case-insensitive, tried
in order; the bare `\d{4}` here carries no word boundaries). -/
def datePart2 (s : Str) : Option Nat :=
  match matchLitCI (str "Present") s with
  | some _ => some 7
  | none =>
    match matchLitCI (str "Now") s with
    | some _ => some 3
    | none =>
      match dateMonths.findSome? (fun m => dateMonthYearOne m s) with
      | some n => some n
      | none => if 4 ≤ digitsAvail s then some 4 else none

/-- Match of `DATE_RE` at the head of `s` (`prev` is the preceding
character, needed for the `\b` of the bare-year branch): first
alternation, whitespace, one to three separator-class characters (greedy),
whitespace, second alternation. -/
def dateMatchAt (prev : Option Char) (s : Str) : Option Nat :=
  (datePart1Opts prev s).findSome? (fun p1 =>
    let s2 := s.drop p1
    let ws1 := (s2.takeWhile isSpacePy).length
    let s3 := s2.drop ws1
    let run := (s3.takeWhile isDateSep).length
    (if 3 ≤ run then [3, 2, 1] else if run = 2 then [2, 1]
     else if run = 1 then [1] else []).findSome? (fun k =>
      let s4 := s3.drop k
      let ws2 := (s4.takeWhile isSpacePy).length
      (datePart2 (s4.drop ws2)).map (fun p2 => p1 + ws1 + k + ws2 + p2)))

/-- `DATE_RE.search`: leftmost match, returning the matched text. -/
def dateFirstAux : Nat → Option Char → Str → Option Str
  | 0, _, _ => none
  | _ + 1, _, [] => none
  | fuel + 1, prev, c :: rest =>
    match dateMatchAt prev (c :: rest) with
    | some len => some ((c :: rest).take len)
    | none => dateFirstAux fuel (some c) rest

/-- The text of the first `DATE_RE` match, when any. -/
def dateFirst (l : Str) : Option Str := dateFirstAux (l.length + 1) none l

/-- `DATE_RE.search` as a Boolean. -/
def dateSearch (l : Str) : Bool := (dateFirst l).isSome

/-- `re.split(r"[-–—]|\bto\b", span, flags=re.I)`: split on any dash or
on a word-bounded case-insensitive `"to"`. -/
def splitDateAux : Nat → Option Char → Str → Str → List Str
  | 0, _, acc, rest => [acc.reverse ++ rest]
  | _ + 1, _, acc, [] => [acc.reverse]
  | fuel + 1, prev, acc, c :: rest =>
    if c = '-' ∨ c = '–' ∨ c = '—' then
      acc.reverse :: splitDateAux fuel (some c) [] rest
    else
      if (c.toLower = 't' ∧ rest.head?.any (fun d => d.toLower = 'o') ∧
          prev.all (fun p => ¬ isWordPy p) ∧
          (rest.drop 1).head?.all (fun e => ¬ isWordPy e)) then
        acc.reverse :: splitDateAux fuel (some 'o') [] (rest.drop 1)
      else splitDateAux fuel (some c) (c :: acc) rest

/-- `_extract_dates_from_line`: search the date pattern, split its text on
dashes or `"to"`, strip whitespace and dots, return the first one or two
pieces.  (The no-piece case is unreachable: the first alternation always
contributes digits, which no separator consumes.) -/
def extractDatesFromLine (line : Str) : Option Str × Option Str :=
  match dateFirst line with
  | none => (none, none)
  | some span =>
    let parts := (splitDateAux (span.length + 1) none [] span).filterMap (fun p =>
      if (pyStrip p).isEmpty then none else some (pyStripChars [str "."].flatten (pyStrip p)))
    match parts with
    | [] => (none, none)
    | [a] => (some a, none)
    | a :: b :: _ => (some a, some b)

/-- The bullet glyphs of the entry parsers. -/
def bulletMarks : List Char := ['-', '•', '*', '·', '●', '▪', '►']

/-- `_is_header_like`: a date range, an `"@"` or `" at "`, or a short line
(1–8 tokens) that is all-uppercase or has a capitalized token. -/
def isHeaderLike (line : Str) : Bool :=
  if line.isEmpty then false
  else if dateSearch line then true
  else if line.any (fun c => c = '@') ∨ isSubstr (str " at ") (lowerS line) then true
  else
    let words := pySplit line
    1 ≤ words.length ∧ words.length ≤ 8 ∧
      (pyStrip line = upperS (pyStrip line) ∨ words.any (fun w => w.head?.any Char.isUpper))

/-- An experience entry (`location` is never set by the source). -/
structure ExpEntry where
  title : Option Str
  company : Option Str
  location : Option Str
  start_date : Option Str
  end_date : Option Str
  bullets : List Str
  raw_header : Option Str
deriving DecidableEq, Repr

/-- Split on every single occurrence of a character of `seps`. -/
def splitOnCharsAux (seps : List Char) : Str → Str → List Str
  | acc, [] => [acc.reverse]
  | acc, c :: rest =>
    if seps.contains c then acc.reverse :: splitOnCharsAux seps [] rest
    else splitOnCharsAux seps (c :: acc) rest

/-- `re.split` on a character class (single-character separators). -/
def splitOnChars (seps : List Char) (l : Str) : List Str := splitOnCharsAux seps [] l

/-- `re.split(r"\s+at\s+", header, flags=re.I)`: split on a whitespace
run, a case-insensitive `"at"`, and another whitespace run. -/
def splitAtSepAux : Nat → Str → Str → List Str
  | 0, acc, rest => [acc.reverse ++ rest]
  | _ + 1, acc, [] => [acc.reverse]
  | fuel + 1, acc, c :: rest =>
    if isSpacePy c then
      let ws1 := ((c :: rest).takeWhile isSpacePy).length
      let r1 := (c :: rest).drop ws1
      match matchLitCI (str "at") r1 with
      | some r2 =>
        let ws2 := (r2.takeWhile isSpacePy).length
        if ws2 = 0 then splitAtSepAux fuel (c :: acc) rest
        else acc.reverse :: splitAtSepAux fuel [] (r2.drop ws2)
      | none => splitAtSepAux fuel (c :: acc) rest
    else splitAtSepAux fuel (c :: acc) rest

/-- The header-continuation loop of `parse_experience_section`: absorb
following lines that neither start with a bullet glyph nor look like
headers, while they have at most 8 tokens, joining with `" | "`. -/
def expHeaderExt : Str → List Str → Str × List Str
  | header, [] => (header, [])
  | header, l :: ls =>
    if (pyStrip l).head?.any (fun c => bulletMarks.contains c) ∨ isHeaderLike l then
      (header, l :: ls)
    else if wordCount l ≤ 8 then expHeaderExt (header ++ str " | " ++ pyStrip l) ls
    else (header, l :: ls)

/-- The bullet loop: collect lines up to the next header-like line,
skipping blank ones and stripping bullet glyphs. -/
def expBullets : List Str → List Str × List Str
  | [] => ([], [])
  | l :: ls =>
    if isHeaderLike l then ([], l :: ls)
    else
      let l' := pyStrip l
      if l'.isEmpty then expBullets ls
      else
        let b := if l'.head?.any (fun c => bulletMarks.contains c)
          then pyStrip (pyLstripChars bulletMarks l') else l'
        let p := expBullets ls
        (b :: p.1, p.2)

/-- The pre-header buffer loop: stripped lines up to the first header-like
line. -/
def expBuffer : List Str → List Str × List Str
  | [] => ([], [])
  | l :: ls =>
    if isHeaderLike l then ([], l :: ls)
    else
      let p := expBuffer ls
      (pyStrip l :: p.1, p.2)

/-- Assemble one experience entry from the joined header and bullets:
dates from the date pattern; title/company split on the first `"@"`, else
on `\s+at\s+` when `" at "` occurs (case-insensitively), else on commas,
else the whole header is the title. -/
def mkExpEntry (header : Str) (bullets : List Str) : ExpEntry :=
  let dates := extractDatesFromLine header
  let tc : Option Str × Option Str :=
    if header.any (fun c => c = '@') then
      (some (pyStrip (header.takeWhile (fun c => ¬ c = '@'))),
       some (pyStrip ((header.dropWhile (fun c => ¬ c = '@')).drop 1)))
    else if isSubstr (str " at ") (lowerS header) then
      match splitAtSepAux (header.length + 1) [] header with
      | a :: b :: _ => (some (pyStrip a), some (pyStrip b))
      | _ => (none, none)
    else
      match ((splitOnChars [','] header).map pyStrip).filter (fun p => ¬ p.isEmpty) with
      | a :: b :: _ => (some a, some b)
      | _ => (some header, none)
  { title := tc.1, company := tc.2, location := none,
    start_date := dates.1, end_date := dates.2,
    bullets := bullets, raw_header := some header }

/-- The scan of `parse_experience_section`.  In the non-header branch the
source re-tests the same raw line in its inner loop: when the raw line is
header-like but its stripped form is not, the index never advances and the
source loops forever — the model returns `none` exactly there. -/
def parseExpAux : Nat → List Str → Option (List ExpEntry)
  | 0, _ => none
  | _ + 1, [] => some []
  | fuel + 1, l :: ls =>
    let ln := pyStrip l
    if isHeaderLike ln then
      let he := expHeaderExt ln ls
      let bu := expBullets he.2
      (parseExpAux fuel bu.2).map (fun es => mkExpEntry he.1 bu.1 :: es)
    else if isHeaderLike l then none
    else
      let bf := expBuffer (l :: ls)
      (parseExpAux fuel bf.2).map (fun es =>
        if bf.1.isEmpty then es
        else { title := none, company := none, location := none, start_date := none,
               end_date := none, bullets := bf.1, raw_header := none } :: es)

/-- `parse_experience_section` (`none` marks the source's divergence,
which no stripped input reaches). -/
def parseExperienceSection (lines : List Str) : Option (List ExpEntry) :=
  parseExpAux (lines.length + 1) lines

/-- A project entry (`role` is never set by the source). -/
structure ProjEntry where
  name : Option Str
  role : Option Str
  tech : List Str
  bullets : List Str
  raw_header : Option Str
deriving DecidableEq, Repr

/-- The stop condition of the project collection loops: a non-blank line
of at most 10 tokens equal to its own uppercase. -/
def projStop (l : Str) : Bool :=
  ¬ (pyStrip l).isEmpty ∧ wordCount l ≤ 10 ∧ pyStrip l = upperS (pyStrip l)

/-- The collection loop of `parse_projects_section`: until the next stop
line, blank lines are skipped, bullet-glyph lines are unglyphed into
bullets, lines holding `","` or `"|"` are tokenized into the tech list,
anything else is a bullet. -/
def projCollect : List Str → List Str × List Str × List Str
  | [] => ([], [], [])
  | l :: ls =>
    if projStop l then ([], [], l :: ls)
    else
      let l' := pyStrip l
      if l'.isEmpty then projCollect ls
      else if l'.head?.any (fun c => bulletMarks.contains c) then
        let p := projCollect ls
        (pyStrip (pyLstripChars bulletMarks l') :: p.1, p.2.1, p.2.2)
      else if l'.any (fun c => c = ',') ∨ l'.any (fun c => c = '|') then
        let p := projCollect ls
        (p.1, ((splitOnChars [',', '|'] l').map pyStrip).filter (fun t => ¬ t.isEmpty) ++ p.2.1,
         p.2.2)
      else
        let p := projCollect ls
        (l' :: p.1, p.2.1, p.2.2)

/-- The fallback buffer loop of `parse_projects_section`. -/
def projBuffer : List Str → List Str × List Str
  | [] => ([], [])
  | l :: ls =>
    if projStop l then ([], l :: ls)
    else
      let p := projBuffer ls
      (pyStrip l :: p.1, p.2)

/-- The scan of `parse_projects_section`: a non-blank stripped line of at
most 10 tokens, or ending in a colon, opens an entry named by the line
with trailing colons stripped; otherwise lines buffer into a nameless
entry. -/
def parseProjAux : Nat → List Str → List ProjEntry
  | 0, _ => []
  | _ + 1, [] => []
  | fuel + 1, l :: ls =>
    let ln := pyStrip l
    if ¬ ln.isEmpty ∧ (wordCount ln ≤ 10 ∨ ln.getLast? = some ':') then
      let col := projCollect ls
      { name := some (pyRstripChars [':'] ln), role := none, tech := col.2.1,
        bullets := col.1, raw_header := some ln } :: parseProjAux fuel col.2.2
    else
      let bf := projBuffer (l :: ls)
      let tailEntries := parseProjAux fuel bf.2
      if bf.1.isEmpty then tailEntries
      else ({ name := none, role := none, tech := [], bullets := bf.1,
              raw_header := none } : ProjEntry) :: tailEntries

/-- `parse_projects_section`. -/
def parseProjectsSection (lines : List Str) : List ProjEntry :=
  parseProjAux (lines.length + 1) lines

theorem pySplitAux_dropWhile (l : Str) :
    pySplitAux [] (l.dropWhile isSpacePy) = pySplitAux [] l := by
  induction l with
  | nil => rfl
  | cons c rest ih =>
    by_cases hc : isSpacePy c = true
    · rw [List.dropWhile_cons_of_pos hc, ih]
      simp [pySplitAux, hc]
    · rw [List.dropWhile_cons_of_neg hc]

theorem pySplitAux_all_ws (t : Str) (h : ∀ c ∈ t, isSpacePy c = true) :
    pySplitAux [] t = [] := by
  induction t with
  | nil => rfl
  | cons c rest ih =>
    have hc := h c (List.mem_cons_self _ _)
    simp only [pySplitAux, hc, if_true, List.isEmpty_nil]
    exact ih (fun d hd => h d (List.mem_cons_of_mem _ hd))

theorem pySplitAux_append_ws :
    ∀ (l t cur : Str), (∀ c ∈ t, isSpacePy c = true) →
      pySplitAux cur (l ++ t) = pySplitAux cur l := by
  intro l
  induction l with
  | nil =>
    intro t cur h
    cases t with
    | nil => rfl
    | cons c t' =>
      have hc := h c (List.mem_cons_self _ _)
      have ht' : ∀ d ∈ t', isSpacePy d = true := fun d hd => h d (List.mem_cons_of_mem _ hd)
      by_cases hcur : cur.isEmpty
      · rw [List.isEmpty_iff.mp hcur]
        simp only [List.nil_append, pySplitAux, List.isEmpty_nil, hc, if_true]
        exact pySplitAux_all_ws t' ht'
      · simp only [List.nil_append, pySplitAux, hc, if_true, hcur, if_false,
          Bool.false_eq_true]
        rw [pySplitAux_all_ws t' ht']
  | cons c l' ih =>
    intro t cur h
    simp only [List.cons_append, pySplitAux, List.append_eq]
    by_cases hc : isSpacePy c = true
    · simp only [hc, if_true]
      by_cases hcur : cur.isEmpty
      · simp only [hcur, if_true]
        exact ih _ _ h
      · simp only [hcur, if_false, Bool.false_eq_true]
        rw [ih _ _ h]
    · simp only [hc, if_false, Bool.false_eq_true]
      exact ih _ _ h

theorem pySplit_pyStrip (l : Str) : pySplit (pyStrip l) = pySplit l := by
  unfold pySplit
  have h1 : pySplitAux [] l = pySplitAux [] (l.dropWhile isSpacePy) :=
    (pySplitAux_dropWhile l).symm
  set l1 := l.dropWhile isSpacePy with hl1
  have hdecomp : l1 = pyStrip l ++ (l1.reverse.takeWhile isSpacePy).reverse := by
    unfold pyStrip
    rw [← hl1]
    conv_lhs => rw [← List.reverse_reverse l1]
    conv_lhs => rw [← List.takeWhile_append_dropWhile (p := isSpacePy) (l := l1.reverse)]
    rw [List.reverse_append]
  have hws : ∀ c ∈ (l1.reverse.takeWhile isSpacePy).reverse, isSpacePy c = true := by
    intro c hc
    exact List.mem_takeWhile_imp (List.mem_reverse.mp hc)
  rw [h1, hdecomp, pySplitAux_append_ws _ _ _ hws]

theorem wordCount_pyStrip (l : Str) : wordCount (pyStrip l) = wordCount l := by
  unfold wordCount
  rw [pySplit_pyStrip]

theorem projCollect_cons_not_stop (l : Str) (ls : List Str) (h : projStop l = false) :
    (projCollect (l :: ls)).2.2 = (projCollect ls).2.2 := by
  simp only [projCollect, h, Bool.false_eq_true, if_false]
  split
  · rfl
  · split
    · rfl
    · split <;> rfl

theorem projCollect_len : ∀ ls : List Str, (projCollect ls).2.2.length ≤ ls.length := by
  intro ls
  induction ls with
  | nil => exact Nat.le_refl _
  | cons l ls' ih =>
    by_cases h : projStop l = true
    · simp only [projCollect, h, if_true]
      exact Nat.le_refl _
    · rw [projCollect_cons_not_stop l ls' (by simpa using h)]
      exact Nat.le_succ_of_le ih

theorem projCollect_stop_mem :
    ∀ (ls : List Str) (x : Str), x ∈ ls → projStop x = true → x ∈ (projCollect ls).2.2 := by
  intro ls
  induction ls with
  | nil => intro x hx; simp at hx
  | cons l ls' ih =>
    intro x hx hstop
    by_cases h : projStop l = true
    · simp only [projCollect, h, if_true]
      exact hx
    · rw [projCollect_cons_not_stop l ls' (by simpa using h)]
      rcases List.mem_cons.mp hx with heq | hmem
      · subst heq
        rw [hstop] at h
        exact absurd rfl h
      · exact ih x hmem hstop

theorem projBuffer_cons_not_stop (l : Str) (ls : List Str) (h : projStop l = false) :
    (projBuffer (l :: ls)).2 = (projBuffer ls).2 := by
  simp [projBuffer, h]

theorem projBuffer_len : ∀ ls : List Str, (projBuffer ls).2.length ≤ ls.length := by
  intro ls
  induction ls with
  | nil => exact Nat.le_refl _
  | cons l ls' ih =>
    by_cases h : projStop l = true
    · simp only [projBuffer, h, if_true]
      exact Nat.le_refl _
    · rw [projBuffer_cons_not_stop l ls' (by simpa using h)]
      exact Nat.le_succ_of_le ih

theorem projBuffer_stop_mem :
    ∀ (ls : List Str) (x : Str), x ∈ ls → projStop x = true → x ∈ (projBuffer ls).2 := by
  intro ls
  induction ls with
  | nil => intro x hx; simp at hx
  | cons l ls' ih =>
    intro x hx hstop
    by_cases h : projStop l = true
    · simp only [projBuffer, h, if_true]
      exact hx
    · rw [projBuffer_cons_not_stop l ls' (by simpa using h)]
      rcases List.mem_cons.mp hx with heq | hmem
      · subst heq
        rw [hstop] at h
        exact absurd rfl h
      · exact ih x hmem hstop

theorem projStop_implies_start {l : Str} (h : projStop l = true) :
    ¬ (pyStrip l).isEmpty = true ∧
      (wordCount (pyStrip l) ≤ 10 ∨ (pyStrip l).getLast? = some ':') := by
  simp only [projStop, Bool.and_eq_true, decide_eq_true_eq] at h
  refine ⟨?_, Or.inl ?_⟩
  · simpa using h.1
  · rw [wordCount_pyStrip]
    exact h.2.1

theorem parseProjAux_stop_header :
    ∀ (fuel : Nat) (lines : List Str), lines.length < fuel →
      ∀ ln ∈ lines, projStop ln = true →
      ∃ e ∈ parseProjAux fuel lines, e.raw_header = some (pyStrip ln) := by
  intro fuel
  induction fuel with
  | zero => intro lines h; exact absurd h (Nat.not_lt_zero _)
  | succ f ih =>
    intro lines hlen ln hln hstop
    cases lines with
    | nil => simp at hln
    | cons l ls =>
      by_cases hstart : (¬ (pyStrip l).isEmpty = true ∧
          (wordCount (pyStrip l) ≤ 10 ∨ (pyStrip l).getLast? = some ':'))
      · rcases List.mem_cons.mp hln with heq | hmem
        · subst heq
          refine ⟨⟨some (pyRstripChars [':'] (pyStrip ln)), none, (projCollect ls).2.1,
            (projCollect ls).1, some (pyStrip ln)⟩, ?_, rfl⟩
          simp only [parseProjAux]
          rw [if_pos hstart]
          exact List.mem_cons_self _ _
        · have hmem2 : ln ∈ (projCollect ls).2.2 := projCollect_stop_mem ls ln hmem hstop
          have hlen2 : (projCollect ls).2.2.length < f :=
            Nat.lt_of_le_of_lt (projCollect_len ls) (Nat.lt_of_succ_lt_succ hlen)
          obtain ⟨e, he, hraw⟩ := ih (projCollect ls).2.2 hlen2 ln hmem2 hstop
          refine ⟨e, ?_, hraw⟩
          simp only [parseProjAux]
          rw [if_pos hstart]
          exact List.mem_cons_of_mem _ he
      · have hnl : ln ≠ l := by
          intro heq
          subst heq
          exact hstart (projStop_implies_start hstop)
        have hstopl : projStop l = false := by
          cases hpl : projStop l
          · rfl
          · exact absurd (projStop_implies_start hpl) hstart
        have hmem2 : ln ∈ (projBuffer (l :: ls)).2 :=
          projBuffer_stop_mem (l :: ls) ln hln hstop
        have hlen2 : (projBuffer (l :: ls)).2.length < f := by
          rw [projBuffer_cons_not_stop l ls hstopl]
          exact Nat.lt_of_le_of_lt (projBuffer_len ls) (Nat.lt_of_succ_lt_succ hlen)
        obtain ⟨e, he, hraw⟩ := ih (projBuffer (l :: ls)).2 hlen2 ln hmem2 hstop
        refine ⟨e, ?_, hraw⟩
        simp only [parseProjAux]
        rw [if_neg hstart]
        split
        · exact he
        · exact List.mem_cons_of_mem _ he

/-- C5 (amended): the collection loops stop only at non-blank lines of at
most 10 tokens equal to their own uppercase, so only those lines are
guaranteed to start entries: every such line becomes the raw header of
its own project entry.  (A short mixed-case line, though it would open an
entry at the top of the scan, is absorbed into a preceding entry's
collection — which refutes the claim as stated.) -/
theorem c5_projects_amended (lines : List Str) (ln : Str)
    (h1 : ln ∈ lines) (h2 : projStop ln = true) :
    ∃ e ∈ parseProjectsSection lines, e.raw_header = some (pyStrip ln) :=
  parseProjAux_stop_header (lines.length + 1) lines (Nat.lt_succ_self _) ln h1 h2

/-- C5 counterexample: `"Another Project"` has at most 10 tokens — the
claimed header condition — yet it ends up inside the bullets of the
preceding entry instead of starting its own. -/
theorem c5_projects_counterexample :
    parseProjectsSection [str "Project A", str "Another Project"] =
        [{ name := some (str "Project A"), role := none, tech := [],
           bullets := [str "Another Project"], raw_header := some (str "Project A") }] ∧
      wordCount (str "Another Project") ≤ 10 := by
  refine ⟨by decide, by decide⟩

/-- C5 witness: a short all-uppercase line heads its own entry. -/
theorem c5_projects_amended_witness :
    ∃ e ∈ parseProjectsSection [str "ALPHA TOOL",
        str "built quietly over several long months with care and effort"],
      e.raw_header = some (pyStrip (str "ALPHA TOOL")) :=
  c5_projects_amended _ (str "ALPHA TOOL") (List.mem_cons_self _ _) (by decide)

/-- C1 counterexample input: the spec's experience scenario. -/
def c1lines : List Str :=
  [str "Senior Engineer at Acme Corp", str "Jan 2020 - Present",
   str "- Built a thing", str "- Shipped another thing"]

/-- C1 counterexample: the scenario yields four entries, not one — the
date line and each bullet line is itself header-like (short with a
capitalized token), so each opens its own entry and no bullets attach. -/
theorem c1_experience_counterexample :
    (parseExperienceSection c1lines).map List.length = some 4 := by
  decide

/-- C1 (amended): on the scenario the parser returns four entries: the
first with title `"Senior Engineer"`, company `"Acme Corp"`, no dates and
no bullets; the second headed by the date line, with `start_date`
`"Jan 2020"` and `end_date` `"Present"`; the third and fourth headed by
the raw bullet lines (glyph not stripped, since they parse as headers),
all with empty bullet lists. -/
theorem c1_experience_amended :
    parseExperienceSection c1lines = some
      [{ title := some (str "Senior Engineer"), company := some (str "Acme Corp"),
         location := none, start_date := none, end_date := none, bullets := [],
         raw_header := some (str "Senior Engineer at Acme Corp") },
       { title := some (str "Jan 2020 - Present"), company := none, location := none,
         start_date := some (str "Jan 2020"), end_date := some (str "Present"),
         bullets := [], raw_header := some (str "Jan 2020 - Present") },
       { title := some (str "- Built a thing"), company := none, location := none,
         start_date := none, end_date := none, bullets := [],
         raw_header := some (str "- Built a thing") },
       { title := some (str "- Shipped another thing"), company := none, location := none,
         start_date := none, end_date := none, bullets := [],
         raw_header := some (str "- Shipped another thing") }] := by
  decide

/-- Python `str.title()` on ASCII: a letter after a non-letter is
uppercased, a letter after a letter is lowercased. -/
def pyTitleAux : Bool → Str → Str
  | _, [] => []
  | prevCased, c :: rest =>
    if c.isAlpha then
      (if prevCased then c.toLower else c.toUpper) :: pyTitleAux true rest
    else c :: pyTitleAux false rest

/-- Python `str.title()`. -/
def pyTitle (l : Str) : Str := pyTitleAux false l

/-- The phrase normalization of `parse_skills_section`: collapse inner
whitespace; keep the phrase as-is when it equals its own uppercase
(acronym rule), else title-case it. -/
def normalizeSkill (p : Str) : Str :=
  let s := collapseSpacesAux false p
  if upperS s = s then s else pyTitle s

/-- The candidate phrases: lines joined with `" | "`, split on comma,
pipe, semicolon or line break, stripped, empties dropped. -/
def skillPhrases (lines : List Str) : List Str :=
  ((splitOnChars [',', '|', ';', '\n'] (List.intercalate (str " | ") lines)).map pyStrip).filter
    (fun p => ¬ p.isEmpty)

/-- The source's dedup loop with its `seen` set of lowercased skills. -/
def skillsDedup : List Str → List Str → List Str
  | _, [] => []
  | seen, s :: rest =>
    if lowerS s ∈ seen then skillsDedup seen rest
    else s :: skillsDedup (lowerS s :: seen) rest

/-- `parse_skills_section`. -/
def parseSkillsSection (lines : List Str) : List Str :=
  skillsDedup [] ((skillPhrases lines).map normalizeSkill)

/-- Case-insensitive keep-first deduplication, stated by filtering ahead
(the claim's wording: deduplicated case-insensitively, preserving
first-seen order). -/
def dedupCIAux : Nat → List Str → List Str
  | 0, l => l
  | _ + 1, [] => []
  | fuel + 1, s :: rest =>
    s :: dedupCIAux fuel (rest.filter (fun t => lowerS t ≠ lowerS s))

/-- The claim-side skills pipeline: normalized phrases, deduplicated
case-insensitively preserving first-seen order. -/
def skillsSpecSide (lines : List Str) : List Str :=
  dedupCIAux ((skillPhrases lines).length + 1) ((skillPhrases lines).map normalizeSkill)

theorem dedupCIAux_fuel_irrel :
    ∀ fuel fu2 (xs : List Str), xs.length ≤ fuel → xs.length ≤ fu2 →
      dedupCIAux fuel xs = dedupCIAux fu2 xs := by
  intro fuel
  induction fuel with
  | zero =>
    intro fu2 xs h _
    have : xs = [] := List.eq_nil_of_length_eq_zero (Nat.le_zero.mp h)
    subst this
    cases fu2 <;> rfl
  | succ f ih =>
    intro fu2 xs h h2
    cases xs with
    | nil => cases fu2 <;> rfl
    | cons x tail =>
      cases fu2 with
      | zero => simp at h2
      | succ f2 =>
        simp only [dedupCIAux]
        congr 1
        exact ih f2 _ (le_trans (List.length_filter_le _ _) (Nat.le_of_succ_le_succ h))
          (le_trans (List.length_filter_le _ _) (Nat.le_of_succ_le_succ h2))

theorem skillsDedup_eq_dedupCIAux :
    ∀ (xs seen : List Str) fuel,
      (xs.filter (fun t => decide (lowerS t ∉ seen))).length ≤ fuel →
      skillsDedup seen xs = dedupCIAux fuel (xs.filter (fun t => decide (lowerS t ∉ seen))) := by
  intro xs
  induction xs with
  | nil =>
    intro seen fuel _
    cases fuel <;> rfl
  | cons x tail ih =>
    intro seen fuel hfuel
    by_cases hmem : lowerS x ∈ seen
    · have hdrop : List.filter (fun t => decide (lowerS t ∉ seen)) (x :: tail) =
          tail.filter (fun t => decide (lowerS t ∉ seen)) :=
        List.filter_cons_of_neg (by simp [hmem])
      rw [hdrop] at hfuel
      simp only [skillsDedup, if_pos hmem]
      rw [hdrop]
      exact ih seen fuel hfuel
    · have hkeep : List.filter (fun t => decide (lowerS t ∉ seen)) (x :: tail) =
          x :: tail.filter (fun t => decide (lowerS t ∉ seen)) :=
        List.filter_cons_of_pos (by simp [hmem])
      rw [hkeep] at hfuel
      cases fuel with
      | zero => simp at hfuel
      | succ f =>
        simp only [skillsDedup, if_neg hmem]
        rw [hkeep]
        simp only [dedupCIAux]
        congr 1
        have hpred : (tail.filter (fun t => decide (lowerS t ∉ seen))).filter
            (fun t => decide (lowerS t ≠ lowerS x)) =
            tail.filter (fun t => decide (lowerS t ∉ lowerS x :: seen)) := by
          rw [List.filter_filter]
          apply List.filter_congr
          intro t _
          by_cases h1 : lowerS t = lowerS x <;> by_cases h2 : lowerS t ∈ seen <;>
            simp [h1, h2]
        have hlen : (tail.filter (fun t => decide (lowerS t ∉ lowerS x :: seen))).length ≤ f := by
          rw [← hpred]
          exact le_trans (List.length_filter_le _ _) (Nat.le_of_succ_le_succ hfuel)
        rw [hpred]
        exact ih (lowerS x :: seen) f hlen

/-- C9: the concrete skill list comes out as
`["Python", "SQL", "AWS", "Docker"]` — fully-uppercase phrases kept
verbatim by the acronym rule, the rest title-cased — and in general the
parser equals the claim-side pipeline: normalized phrases deduplicated
case-insensitively, preserving first-seen order. -/
theorem c9_skills_parsing :
    parseSkillsSection [str "Python, SQL", str "AWS | Docker"] =
        [str "Python", str "SQL", str "AWS", str "Docker"] ∧
      ∀ lines : List Str, parseSkillsSection lines = skillsSpecSide lines := by
  constructor
  · decide
  · intro lines
    unfold parseSkillsSection skillsSpecSide
    set xs := (skillPhrases lines).map normalizeSkill with hxs
    have hfilter : xs.filter (fun t => decide (lowerS t ∉ ([] : List Str))) = xs := by
      apply List.filter_eq_self.mpr
      intro a _
      simp
    have h1 := skillsDedup_eq_dedupCIAux xs [] (xs.length + 1)
      (by rw [hfilter]; exact Nat.le_succ _)
    rw [hfilter] at h1
    rw [h1]
    apply dedupCIAux_fuel_irrel
    · exact Nat.le_succ _
    · rw [hxs]
      simp only [List.length_map]
      exact Nat.le_succ _

/-- An education entry. -/
structure EduEntry where
  degree : Option Str
  institute : Option Str
  bullets : List Str
  raw_header : Str
deriving DecidableEq, Repr

/-- The bullet loop of `parse_education_section`: absorb following lines
of at most 12 tokens that are not header-like, keeping the non-blank ones
stripped. -/
def eduCollect : List Str → List Str × List Str
  | [] => ([], [])
  | l :: ls =>
    if wordCount l ≤ 12 ∧ ¬ isHeaderLike l then
      let l' := pyStrip l
      let p := eduCollect ls
      if l'.isEmpty then (p.1, p.2) else (l' :: p.1, p.2)
    else ([], l :: ls)

/-- `header.split(" - ", 1)`: split at the first literal occurrence. -/
def splitDashOnceAux : Str → Str → Option (Str × Str)
  | acc, ' ' :: '-' :: ' ' :: rest => some (acc.reverse, rest)
  | acc, c :: rest => splitDashOnceAux (c :: acc) rest
  | _, [] => none

/-- Assemble one education entry: degree/institute split on commas (first
piece = degree, the rest re-joined with `", "`), else on the first
`" - "`, else the whole header is the degree. -/
def mkEduEntry (header : Str) (bullets : List Str) : EduEntry :=
  let parts := ((splitOnChars [','] header).map pyStrip).filter (fun p => ¬ p.isEmpty)
  match parts with
  | a :: b :: rest =>
    { degree := some a, institute := some (List.intercalate (str ", ") (b :: rest)),
      bullets := bullets, raw_header := header }
  | _ =>
    match splitDashOnceAux [] header with
    | some p =>
      { degree := some (pyStrip p.1), institute := some (pyStrip p.2),
        bullets := bullets, raw_header := header }
    | none =>
      { degree := some header, institute := none, bullets := bullets,
        raw_header := header }

/-- The scan of `parse_education_section`: blank lines skipped, every
other line heads an entry that absorbs following short non-header lines. -/
def parseEduAux : Nat → List Str → List EduEntry
  | 0, _ => []
  | _ + 1, [] => []
  | fuel + 1, l :: ls =>
    let ln := pyStrip l
    if ln.isEmpty then parseEduAux fuel ls
    else
      let col := eduCollect ls
      mkEduEntry ln col.1 :: parseEduAux fuel col.2

/-- `parse_education_section`. -/
def parseEducationSection (lines : List Str) : List EduEntry :=
  parseEduAux (lines.length + 1) lines

/-! ### 4.7 Top-Level Orchestrator (`parse_resume_text`) -/

/-- The aggregate record returned by `parse_resume_text`. -/
structure ParsedResume where
  raw_text : Str
  raw_clean : Str
  name : Option Str
  contact : Contact
  blocks : List (List Str)
  lines : List Str
  sections : List (String × List Str)
  experience : List ExpEntry
  projects : List ProjEntry
  education : List EduEntry
  skills : List Str
  other : List (String × List Str)
deriving DecidableEq, Repr

/-- `k in sections` / `sections[k]` on the insertion-ordered map. -/
def sectionsFind (sections : List (String × List Str)) (k : String) : Option (List Str) :=
  (sections.find? (fun kv => kv.1 = k)).map Prod.snd

/-- The blocks surviving the full front of the pipeline (normalize twice
— `parse_resume_text` cleans and `preprocess_text_into_blocks` cleans its
input again — then the repetition filter). -/
def pipelineBlocks (raw : Str) : List (List Str) :=
  removeRepeatedHeaderFooter (preprocessTextIntoBlocks (normalizeText raw)).1

/-- The flat line list recomputed from the filtered blocks. -/
def pipelineLines (raw : Str) : List Str := (pipelineBlocks raw).flatten

/-- `parse_resume_text` (`none` marks the divergence of the experience
parser, which no stripped section content reaches). -/
def parseResumeText (raw : Str) : Option ParsedResume :=
  let cleaned := normalizeText raw
  let blocks := pipelineBlocks raw
  let flatLines := pipelineLines raw
  let hdr := extractHeaderInfo flatLines
  let sections := segmentSections hdr.2.2
  match (match sectionsFind sections "experience" with
         | some ls => parseExperienceSection ls
         | none => some []) with
  | none => none
  | some exps =>
    some
      { raw_text := raw, raw_clean := cleaned, name := hdr.1, contact := hdr.2.1,
        blocks := blocks, lines := flatLines, sections := sections,
        experience := exps,
        projects := (match sectionsFind sections "projects" with
          | some ls => parseProjectsSection ls
          | none => []),
        education := (match sectionsFind sections "education" with
          | some ls => parseEducationSection ls
          | none => []),
        skills := (match sectionsFind sections "skills" with
          | some ls => parseSkillsSection ls
          | none => []),
        other := ["certifications", "awards", "summary"].filterMap (fun k =>
          (sectionsFind sections k).map (fun ls => (k, ls))) }

theorem hdrScanAux_const :
    ∀ (window : List Str) (i : Nat),
      (∀ ln ∈ window, emailMatches ln = [] ∧ phoneMatches ln = [] ∧ urlMatches ln = [] ∧
        likelyName ln = false) →
      hdrScanAux i window (⟨[], [], []⟩, none) = (⟨[], [], []⟩, none) := by
  intro window
  induction window with
  | nil => intro i _; rfl
  | cons ln rest ih =>
    intro i h
    have hln := h ln (List.mem_cons_self _ _)
    simp only [hdrScanAux, hln.1, hln.2.1, hln.2.2.1, hln.2.2.2, appendNewAux,
      appendPhonesAux, Bool.false_eq_true, if_false]
    exact ih (i + 1) (fun d hd => h d (List.mem_cons_of_mem _ hd))

theorem extract_no_header (lines : List Str)
    (h : ∀ ln ∈ lines, emailMatches ln = [] ∧ phoneMatches ln = [] ∧ urlMatches ln = [] ∧
      likelyName ln = false) :
    extractHeaderInfo lines = (none, ⟨[], [], []⟩, lines) := by
  have hwin : ∀ ln ∈ lines.take 15, emailMatches ln = [] ∧ phoneMatches ln = [] ∧
      urlMatches ln = [] ∧ likelyName ln = false :=
    fun ln hln => h ln (List.mem_of_mem_take hln)
  have hscan := hdrScanAux_const (lines.take 15) 0 hwin
  have hhit : (lines.take 15).filter contactHit = [] := by
    apply List.eq_nil_iff_forall_not_mem.mpr
    intro ln hln
    have hmem := List.mem_of_mem_filter hln
    have hln2 := hwin ln hmem
    have := List.of_mem_filter hln
    rw [contactHit] at this
    simp [hln2.1, hln2.2.1, hln2.2.2.1] at this
  simp only [extractHeaderInfo, hscan, hhit]
  refine congrArg (fun r => ((none : Option Str), (⟨[], [], []⟩ : Contact), r)) ?_
  apply List.filter_eq_self.mpr
  intro a _
  simp

theorem segAux_all_other :
    ∀ (lines acc : List Str), (∀ ln ∈ lines, isSectionHeader ln = none) →
      segAux [("other", acc)] "other" lines = [("other", acc ++ lines)] := by
  intro lines
  induction lines with
  | nil => intro acc _; simp [segAux]
  | cons ln rest ih =>
    intro acc h
    have hln := h ln (List.mem_cons_self _ _)
    simp only [segAux, hln, addLine, eq_self_iff_true, if_true]
    have := ih (acc ++ [ln]) (fun d hd => h d (List.mem_cons_of_mem _ hd))
    rw [this]
    simp

theorem segmentSections_all_other (lines : List Str)
    (h : ∀ ln ∈ lines, isSectionHeader ln = none) :
    segmentSections lines = if lines.isEmpty then [] else [("other", lines)] := by
  unfold segmentSections
  rw [segAux_all_other lines [] h]
  cases lines with
  | nil => rfl
  | cons ln rest => simp [List.filter]

theorem sectionsFind_single_other (L : List Str) (k : String) (hk : ¬ ("other" : String) = k) :
    sectionsFind [("other", L)] k = none := by
  simp [sectionsFind, List.find?, hk]

/-- C8 counterexample: on the empty string the parser returns empty
contact lists, a null name, empty entry lists — and an empty section map,
with no `"other"` key at all (empty buckets are dropped), contradicting
the claimed "single \"other\" section holding all the lines". -/
theorem c8_total_counterexample :
    parseResumeText (str "") = some
      { raw_text := [], raw_clean := [], name := none, contact := ⟨[], [], []⟩,
        blocks := [], lines := [], sections := [], experience := [], projects := [],
        education := [], skills := [], other := [] } := by
  decide

/-- Degradation on pathological input (helper for the C8 theorem). -/
theorem parseResumeText_pathological (raw : Str)
    (h : ∀ ln ∈ pipelineLines raw, emailMatches ln = [] ∧ phoneMatches ln = [] ∧
      urlMatches ln = [] ∧ likelyName ln = false ∧ isSectionHeader ln = none) :
    parseResumeText raw = some
      { raw_text := raw, raw_clean := normalizeText raw, name := none,
        contact := ⟨[], [], []⟩, blocks := pipelineBlocks raw, lines := pipelineLines raw,
        sections := if (pipelineLines raw).isEmpty then []
          else [("other", pipelineLines raw)],
        experience := [], projects := [], education := [], skills := [], other := [] } := by
  have hc : ∀ ln ∈ pipelineLines raw, emailMatches ln = [] ∧ phoneMatches ln = [] ∧
      urlMatches ln = [] ∧ likelyName ln = false :=
    fun ln hln => ⟨(h ln hln).1, (h ln hln).2.1, (h ln hln).2.2.1, (h ln hln).2.2.2.1⟩
  have hs : ∀ ln ∈ pipelineLines raw, isSectionHeader ln = none :=
    fun ln hln => (h ln hln).2.2.2.2
  have hextract := extract_no_header (pipelineLines raw) hc
  have hseg := segmentSections_all_other (pipelineLines raw) hs
  by_cases hL : (pipelineLines raw).isEmpty
  · simp only [parseResumeText, hextract, hseg, hL, if_true, sectionsFind, List.find?,
      List.filterMap]
    rfl
  · simp only [parseResumeText, hextract, hseg, hL, if_false, Bool.false_eq_true]
    rw [sectionsFind_single_other _ "experience" (by decide)]
    rw [sectionsFind_single_other _ "projects" (by decide)]
    rw [sectionsFind_single_other _ "education" (by decide)]
    rw [sectionsFind_single_other _ "skills" (by decide)]
    simp only [List.filterMap]
    rw [sectionsFind_single_other _ "certifications" (by decide)]
    rw [sectionsFind_single_other _ "awards" (by decide)]
    rw [sectionsFind_single_other _ "summary" (by decide)]
    rfl

/-- C8 witness input: two nine-word lines with no contact data, no
name-like line and no recognizable heading. -/
def c8raw : Str :=
  str "alpha beta gamma delta epsilon zeta eta theta iota\nkappa lambda mu nu xi omicron pi rho sigma"

theorem head?_dropWhile_not (p : Char → Bool) :
    ∀ (l : Str) (c : Char), (l.dropWhile p).head? = some c → p c = false := by
  intro l
  induction l with
  | nil => intro c h; simp at h
  | cons a rest ih =>
    intro c h
    by_cases ha : p a = true
    · rw [List.dropWhile_cons_of_pos ha] at h
      exact ih c h
    · rw [List.dropWhile_cons_of_neg ha] at h
      simp only [List.head?_cons, Option.some.injEq] at h
      subst h
      simpa using ha

theorem dropWhile_eq_self_of_head (p : Char → Bool) (l : Str)
    (h : ∀ c, l.head? = some c → p c = false) : l.dropWhile p = l := by
  cases l with
  | nil => rfl
  | cons a rest => exact List.dropWhile_cons_of_neg (by simp [h a rfl])

theorem getLast?_dropWhile_of_ne_nil (p : Char → Bool) :
    ∀ l : Str, l.dropWhile p ≠ [] → (l.dropWhile p).getLast? = l.getLast? := by
  intro l
  induction l with
  | nil => intro h; exact absurd rfl h
  | cons a rest ih =>
    intro h
    by_cases ha : p a = true
    · rw [List.dropWhile_cons_of_pos ha] at h ⊢
      rw [ih h]
      cases rest with
      | nil => exact absurd rfl h
      | cons b rb => rw [List.getLast?_cons_cons]
    · rw [List.dropWhile_cons_of_neg ha]

theorem pyStrip_idem_core (u : Str) (hu : ∀ c, u.head? = some c → isSpacePy c = false) :
    pyStrip ((u.reverse.dropWhile isSpacePy).reverse) =
      (u.reverse.dropWhile isSpacePy).reverse := by
  set v := u.reverse.dropWhile isSpacePy with hv
  by_cases hvn : v = []
  · rw [hvn]
    rfl
  · have hne : u.reverse.dropWhile isSpacePy ≠ [] := by rw [← hv]; exact hvn
    have h1 : v.reverse.dropWhile isSpacePy = v.reverse := by
      apply dropWhile_eq_self_of_head
      intro c hc
      rw [List.head?_reverse] at hc
      rw [hv, getLast?_dropWhile_of_ne_nil _ u.reverse hne, List.getLast?_reverse] at hc
      exact hu c hc
    have h3 : v.dropWhile isSpacePy = v := by
      apply dropWhile_eq_self_of_head
      intro c hc
      apply head?_dropWhile_not isSpacePy u.reverse c
      rw [← hv]
      exact hc
    unfold pyStrip
    rw [h1, List.reverse_reverse, h3]

theorem pyStrip_idem (l : Str) : pyStrip (pyStrip l) = pyStrip l := by
  have hshow : pyStrip l = ((l.dropWhile isSpacePy).reverse.dropWhile isSpacePy).reverse := rfl
  rw [hshow]
  exact pyStrip_idem_core (l.dropWhile isSpacePy)
    (fun c hc => head?_dropWhile_not isSpacePy l c hc)

theorem preprocess_lines_stripped (raw : Str) :
    ∀ l ∈ (preprocessTextIntoBlocks raw).1.flatten, pyStrip l = l := by
  intro l hl
  simp only [preprocessTextIntoBlocks, List.mem_flatten] at hl
  obtain ⟨blk, hblk, hlblk⟩ := hl
  have hblk2 := List.mem_of_mem_filter hblk
  simp only [List.mem_map] at hblk2
  obtain ⟨b, _, hfb⟩ := hblk2
  rw [← hfb] at hlblk
  have hl2 := List.mem_of_mem_filter hlblk
  simp only [List.mem_map] at hl2
  obtain ⟨x, _, hx⟩ := hl2
  rw [← hx]
  exact pyStrip_idem x

theorem eraseSeen_subset (rep : Str → Bool) :
    ∀ (xs removed : List Str) (x : Str), x ∈ eraseSeen rep removed xs → x ∈ xs := by
  intro xs
  induction xs with
  | nil => intro removed x h; simp [eraseSeen] at h
  | cons a rest ih =>
    intro removed x h
    by_cases hrep : rep (pyStrip a) = true
    · by_cases hmem : pyStrip a ∈ removed
      · simp only [eraseSeen, hrep, if_pos hmem, if_true] at h
        exact List.mem_cons_of_mem _ (ih removed x h)
      · simp only [eraseSeen, hrep, if_neg hmem, if_true] at h
        rcases List.mem_cons.mp h with heq | hmem2
        · rw [heq]; exact List.mem_cons_self _ _
        · exact List.mem_cons_of_mem _ (ih _ x hmem2)
    · simp only [eraseSeen, hrep, if_false, Bool.false_eq_true] at h
      rcases List.mem_cons.mp h with heq | hmem2
      · rw [heq]; exact List.mem_cons_self _ _
      · exact List.mem_cons_of_mem _ (ih _ x hmem2)

theorem removeRepeated_flatten_subset (blocks : List (List Str)) :
    ∀ x ∈ (removeRepeatedHeaderFooter blocks).flatten, x ∈ blocks.flatten := by
  intro x hx
  unfold removeRepeatedHeaderFooter at hx
  split at hx
  · rw [cleanBlocksAux_flatten] at hx
    exact eraseSeen_subset _ _ _ x hx
  · exact hx

theorem extract_remaining_subset (lines : List Str) (s : Nat) :
    ∀ x ∈ (extractHeaderInfo lines s).2.2, x ∈ lines := by
  intro x hx
  simp only [extractHeaderInfo] at hx
  exact List.mem_of_mem_filter hx

theorem segAux_content_all {P : Str → Prop} :
    ∀ (lines : List Str) (m : List (String × List Str)) (cur : String),
      (∀ p ∈ m, ∀ x ∈ p.2, P x) → (∀ ln ∈ lines, P ln) →
      ∀ p ∈ segAux m cur lines, ∀ x ∈ p.2, P x := by
  intro lines
  induction lines with
  | nil => intro m cur hm _; exact hm
  | cons ln rest ih =>
    intro m cur hm hl
    cases hh : isSectionHeader ln with
    | some k =>
      simp only [segAux, hh]
      exact ih _ _ (ensureKey_content m k hm) (fun d hd => hl d (List.mem_cons_of_mem _ hd))
    | none =>
      simp only [segAux, hh]
      exact ih _ _ (addLine_content (hl ln (List.mem_cons_self _ _)) m cur hm)
        (fun d hd => hl d (List.mem_cons_of_mem _ hd))

theorem segmentSections_content_all {P : Str → Prop} (lines : List Str)
    (hl : ∀ ln ∈ lines, P ln) :
    ∀ p ∈ segmentSections lines, ∀ x ∈ p.2, P x := by
  intro p hp
  refine segAux_content_all lines [("other", [])] "other" ?_ hl p
    (List.mem_of_mem_filter hp)
  intro q hq x hx
  simp only [List.mem_singleton] at hq
  subst hq
  simp at hx

theorem expHeaderExt_suffix : ∀ (ls : List Str) (h : Str), (expHeaderExt h ls).2 <:+ ls := by
  intro ls
  induction ls with
  | nil => intro h; exact List.nil_suffix
  | cons l rest ih =>
    intro h
    simp only [expHeaderExt]
    split
    · exact List.suffix_refl _
    · split
      · exact (ih _).trans (List.suffix_cons _ _)
      · exact List.suffix_refl _

theorem expBullets_suffix : ∀ ls : List Str, (expBullets ls).2 <:+ ls := by
  intro ls
  induction ls with
  | nil => exact List.nil_suffix
  | cons l rest ih =>
    simp only [expBullets]
    split
    · exact List.suffix_refl _
    · split
      · exact ih.trans (List.suffix_cons _ _)
      · exact ih.trans (List.suffix_cons _ _)

theorem expBuffer_suffix : ∀ ls : List Str, (expBuffer ls).2 <:+ ls := by
  intro ls
  induction ls with
  | nil => exact List.nil_suffix
  | cons l rest ih =>
    simp only [expBuffer]
    split
    · exact List.suffix_refl _
    · exact ih.trans (List.suffix_cons _ _)

theorem expBuffer_cons_not_header (l : Str) (ls : List Str) (h : isHeaderLike l = false) :
    (expBuffer (l :: ls)).2 = (expBuffer ls).2 := by
  simp [expBuffer, h]

theorem parseExpAux_total :
    ∀ (fuel : Nat) (lines : List Str), lines.length < fuel →
      (∀ l ∈ lines, pyStrip l = l) → (parseExpAux fuel lines).isSome := by
  intro fuel
  induction fuel with
  | zero => intro lines h; exact absurd h (Nat.not_lt_zero _)
  | succ f ih =>
    intro lines hlen hstr
    cases lines with
    | nil => rfl
    | cons l ls =>
      have hsl : pyStrip l = l := hstr l (List.mem_cons_self _ _)
      simp only [parseExpAux, hsl]
      by_cases hh : isHeaderLike l = true
      · rw [if_pos hh]
        have hsuf : (expBullets (expHeaderExt l ls).2).2 <:+ ls :=
          (expBullets_suffix _).trans (expHeaderExt_suffix ls l)
        have hih := ih (expBullets (expHeaderExt l ls).2).2
          (Nat.lt_of_le_of_lt hsuf.length_le (Nat.lt_of_succ_lt_succ hlen))
          (fun x hx => hstr x (List.mem_cons_of_mem _ (hsuf.subset hx)))
        obtain ⟨es, hes⟩ := Option.isSome_iff_exists.mp hih
        rw [hes]
        rfl
      · rw [if_neg hh, if_neg hh]
        have hbuf : (expBuffer (l :: ls)).2 = (expBuffer ls).2 :=
          expBuffer_cons_not_header l ls (by simpa using hh)
        have hih := ih (expBuffer (l :: ls)).2
          (by
            rw [hbuf]
            exact Nat.lt_of_le_of_lt (expBuffer_suffix ls).length_le
              (Nat.lt_of_succ_lt_succ hlen))
          (fun x hx => hstr x ((expBuffer_suffix (l :: ls)).subset hx))
        obtain ⟨es, hes⟩ := Option.isSome_iff_exists.mp hih
        rw [hes]
        rfl

theorem pipelineLines_stripped (raw : Str) :
    ∀ l ∈ pipelineLines raw, pyStrip l = l := by
  intro l hl
  exact preprocess_lines_stripped (normalizeText raw) l
    (removeRepeated_flatten_subset _ l hl)

/-- Totality of the orchestrator: the experience parser's divergence
needs a line whose raw and stripped forms disagree on header-likeness,
and every line the pipeline feeds it is already stripped. -/
theorem parseResumeText_total (raw : Str) : (parseResumeText raw).isSome := by
  have hstr : ∀ l ∈ (extractHeaderInfo (pipelineLines raw)).2.2, pyStrip l = l :=
    fun l hl => pipelineLines_stripped raw l (extract_remaining_subset _ _ l hl)
  have hsect : ∀ p ∈ segmentSections (extractHeaderInfo (pipelineLines raw)).2.2,
      ∀ x ∈ p.2, pyStrip x = x :=
    segmentSections_content_all _ hstr
  simp only [parseResumeText]
  cases hfind : sectionsFind (segmentSections (extractHeaderInfo (pipelineLines raw)).2.2)
      "experience" with
  | none => simp [hfind]
  | some ls =>
    have hls : ∀ x ∈ ls, pyStrip x = x := by
      unfold sectionsFind at hfind
      cases hf : List.find? (fun kv => kv.1 = "experience")
          (segmentSections (extractHeaderInfo (pipelineLines raw)).2.2) with
      | none => rw [hf] at hfind; simp at hfind
      | some kv =>
        rw [hf] at hfind
        simp only [Option.map_some', Option.some.injEq] at hfind
        have hmem := List.mem_of_find?_eq_some hf
        intro x hx
        rw [← hfind] at hx
        exact hsect kv hmem x hx
    have htot := parseExpAux_total (ls.length + 1) ls (Nat.lt_succ_self _) hls
    obtain ⟨es, hes⟩ := Option.isSome_iff_exists.mp htot
    simp [hfind, parseExperienceSection, hes]

/-- C8 (amended): `parse_resume_text` is total — it returns a result on
every input string — and on pathological input (no line with an email,
phone or link match, none name-like, none recognized as a heading) the
result degrades to a null name, empty contact lists, empty
experience/projects/education/skills entry lists, no minor sections, and
a single `"other"` section holding all remaining lines when any remain;
on empty input the empty `"other"` bucket is dropped and the section map
is empty. -/
theorem c8_total_and_degradation :
    (∀ raw : Str, (parseResumeText raw).isSome) ∧
      ∀ raw : Str,
        (∀ ln ∈ pipelineLines raw, emailMatches ln = [] ∧ phoneMatches ln = [] ∧
          urlMatches ln = [] ∧ likelyName ln = false ∧ isSectionHeader ln = none) →
        parseResumeText raw = some
          { raw_text := raw, raw_clean := normalizeText raw, name := none,
            contact := ⟨[], [], []⟩, blocks := pipelineBlocks raw,
            lines := pipelineLines raw,
            sections := if (pipelineLines raw).isEmpty then []
              else [("other", pipelineLines raw)],
            experience := [], projects := [], education := [], skills := [],
            other := [] } :=
  ⟨parseResumeText_total, parseResumeText_pathological⟩

/-- C8 witness: totality and the degradation shape at a concrete
pathological input. -/
theorem c8_total_and_degradation_witness :
    (parseResumeText c8raw).isSome ∧
      parseResumeText c8raw = some
        { raw_text := c8raw, raw_clean := normalizeText c8raw, name := none,
          contact := ⟨[], [], []⟩, blocks := pipelineBlocks c8raw,
          lines := pipelineLines c8raw,
          sections := if (pipelineLines c8raw).isEmpty then []
            else [("other", pipelineLines c8raw)],
          experience := [], projects := [], education := [], skills := [],
          other := [] } :=
  ⟨c8_total_and_degradation.1 c8raw, c8_total_and_degradation.2 c8raw (by decide)⟩
